import Mathlib

/-!
Verification of the def-use edge subsystem: the `Use` edge class and its
per-`Value` use-list (include/llvm/IR/Use.h, lib/IR/Use.cpp), the `User`
operand container (lib/IR/User.cpp), and the thread-local
`UserBlockAllocator` arena (lib/IR/User.cpp).

Machine pointers are modelled as follows: a heap address of a `Use` object
is a `Nat`; an address returned by an allocator is a pair
(allocation id, byte offset) so that distinct allocations are distinct and
pointer arithmetic inside a block is offset arithmetic.
-/

namespace DXCUser

/-! ## Part 1: the arena allocator (`UserBlockAllocator`, lib/IR/User.cpp) -/

namespace Arena

/-- An address: (allocation id, byte offset inside that allocation).
Platform allocations (`operator new` / `new uint8_t[]`) yield fresh
allocation ids at offset 0; carving from a block yields (blob id, offset). -/
abbrev Addr := Nat × Nat

/-- `UserBlockAllocator::BlockSize = 1 << 16`. -/
def BlockSize : Nat := 1 <<< 16

/-- `UserBlockAllocator::LargeAllocationThreshold = 1 << 12`. -/
def LargeAllocationThreshold : Nat := 1 <<< 12

/-- Modelled from the spec: `User::AllocationBits` lives in
include/llvm/IR/User.h, which is not among the sources; §3 of the spec fixes
it as "a small field (≤ `AllocationBits`, e.g. 5 bits)". -/
def AllocationBits : Nat := 5

/-- `UserBlockAllocator::InvalidBucket = 1u << (User::AllocationBits - 1)`. -/
def InvalidBucket : Nat := 1 <<< (AllocationBits - 1)

/-- Modelled from the spec: `PowerOf2Floor` (llvm/Support/MathExtras.h) is
not among the sources; §4.1 describes the free-bucket index as "the
floor-log2 of `S`", i.e. the tag of the largest power of two ≤ `S`.
`Nat.log2 0 = 0`, and the code asserts the argument is nonzero. -/
def PowerOf2Floor (S : Nat) : Nat :=
  if S = 0 then 0 else 2 ^ Nat.log2 S

/-- Modelled from the spec: `NextPowerOf2` (llvm/Support/MathExtras.h) is
not among the sources; §4.1 describes the reuse-bucket index as "the
ceil-log2 of `S` (equivalently, floor-log2 of the next power of two ≥ `S`)",
so the next power of two is the least power of two ≥ `S`. -/
def NextPowerOf2 (S : Nat) : Nat := 2 ^ Nat.clog 2 S

/-- `_BitScanReverse`: index of the most significant set bit. -/
def BitScanReverse (x : Nat) : Nat := Nat.log2 x

/-- `UserBlockAllocator::GetFreeBucketIndex`: the bucket an allocation of
`Size` is tagged with when carved (floored power of two). -/
def GetFreeBucketIndex (Size : Nat) : Nat :=
  BitScanReverse (PowerOf2Floor Size)

/-- `UserBlockAllocator::GetReuseBucketIndex`: the bucket consulted when an
allocation of `Size` looks for a reusable slot. -/
def GetReuseBucketIndex (Size : Nat) : Nat :=
  BitScanReverse (NextPowerOf2 Size)

/-- One arena block: `Blob` is the platform allocation id backing it,
`Offset` the bump cursor. -/
structure Block where
  Blob : Nat
  Offset : Nat
deriving DecidableEq, Repr

/-- The state of `UserBlockAllocator`, together with a model of the
platform allocator: `fresh` is the next unused platform allocation id and
`platformFreed` logs pointers handed to `::operator delete`.
`tags` models the `PrivateAllocatorData` field stored in the object at each
address (`SetPrivateData` / `GetPrivateData`). -/
structure Allocator where
  Blocks : List Block
  Buckets : List (List Addr)
  tags : Addr → Option Nat
  fresh : Nat
  platformFreed : List Addr

/-- The freshly constructed allocator. -/
def Allocator.init : Allocator :=
  { Blocks := [], Buckets := [], tags := fun _ => none, fresh := 0,
    platformFreed := [] }

/-- `UserBlockAllocator::TryPopFree`: pop the top of bucket `BucketIndex`
if that bucket exists and is non-empty. -/
def Allocator.TryPopFree (a : Allocator) (BucketIndex : Nat) :
    Option (Addr × Allocator) :=
  if h : BucketIndex < a.Buckets.length then
    let b := a.Buckets.get ⟨BucketIndex, h⟩
    match b.getLast? with
    | none => none
    | some p =>
        some (p, { a with Buckets := a.Buckets.set BucketIndex b.dropLast })
  else none

/-- `UserBlockAllocator::GetBucketFor`: grow the bucket vector so that
`BucketIndex` is in range. -/
def Allocator.GetBucketFor (a : Allocator) (BucketIndex : Nat) : Allocator :=
  if a.Buckets.length ≤ BucketIndex then
    { a with Buckets :=
        a.Buckets ++ List.replicate (BucketIndex + 1 - a.Buckets.length) [] }
  else a

/-- `UserBlockAllocator::GetFirstBlockFor`: the last block if its remaining
space fits `Size`, else a freshly platform-allocated block appended at the
back. Returns the chosen block's blob id and carve offset, plus the state. -/
def Allocator.GetFirstBlockFor (a : Allocator) (Size : Nat) :
    (Nat × Nat) × Allocator :=
  match a.Blocks.getLast? with
  | some blk =>
      if BlockSize - blk.Offset ≥ Size then ((blk.Blob, blk.Offset), a)
      else
        ((a.fresh, 0),
         { a with Blocks := a.Blocks ++ [{ Blob := a.fresh, Offset := 0 }],
                  fresh := a.fresh + 1 })
  | none =>
      ((a.fresh, 0),
       { a with Blocks := a.Blocks ++ [{ Blob := a.fresh, Offset := 0 }],
                fresh := a.fresh + 1 })

/-- `(Offset + Size + AlignmentSub1) & ~AlignmentSub1` with
`AlignmentSub1 = alignof(void*) - 1 = 7`: round up to 8 bytes. -/
def alignUp8 (n : Nat) : Nat := (n + 7) / 8 * 8

/-- Replace the last block's offset cursor after carving. -/
def Allocator.bumpLast (a : Allocator) (newOffset : Nat) : Allocator :=
  match a.Blocks.getLast? with
  | some blk =>
      { a with Blocks := a.Blocks.dropLast ++ [{ blk with Offset := newOffset }] }
  | none => a

/-- `UserBlockAllocator::Allocate` (lib/IR/User.cpp). Large requests go to
the platform and are tagged `InvalidBucket`; otherwise the reuse bucket is
consulted first, and failing that a region is carved from a block and
tagged with the free-bucket index. -/
def Allocator.Allocate (a : Allocator) (Size : Nat) : Addr × Allocator :=
  if Size > LargeAllocationThreshold then
    let Data : Addr := (a.fresh, 0)
    (Data,
     { a with fresh := a.fresh + 1,
              tags := fun q => if q = Data then some InvalidBucket else a.tags q })
  else
    match a.TryPopFree (GetReuseBucketIndex Size) with
    | some (p, a1) => (p, a1)
    | none =>
        let r := a.GetFirstBlockFor Size
        let Data : Addr := r.1
        let a1 := r.2
        let BucketIndex := GetFreeBucketIndex Size
        let a2 := { a1 with
          tags := fun q => if q = Data then some BucketIndex else a1.tags q }
        (Data, a2.bumpLast (alignUp8 (Data.2 + Size)))

/-- `UserBlockAllocator::Free` (lib/IR/User.cpp): read the tag stored in
the object; `InvalidBucket` delegates to the platform, any other tag pushes
the pointer onto that bucket. A pointer whose tag was never written is
undefined behaviour in the source and is modelled as a no-op. -/
def Allocator.Free (a : Allocator) (Ptr : Addr) : Allocator :=
  match a.tags Ptr with
  | none => a
  | some BucketIndex =>
      if BucketIndex = InvalidBucket then
        { a with platformFreed := Ptr :: a.platformFreed }
      else
        let a1 := a.GetBucketFor BucketIndex
        let b := (a1.Buckets.getD BucketIndex []) ++ [Ptr]
        { a1 with Buckets := a1.Buckets.set BucketIndex b }

/-- The thread-local slot `g_ThreadUserAllocatorTls` together with a model
of the raw platform allocator used on the fallback path
(`new uint8_t[Size]` / `delete[]`): `pfresh` is the next fallback
allocation id, `pfreed` logs pointers handed to `delete[]`, and
`arenaBlobsFreed` logs the block blobs released by `~UserBlockAllocator`. -/
structure ThreadState where
  slot : Option Allocator
  pfresh : Nat
  pfreed : List Addr
  arenaBlobsFreed : List Nat

/-- `UserThreadAlloc::UserThreadAlloc` (lib/IR/User.cpp): asserts the slot
is empty (`none` models the failed assertion) and installs a fresh arena. -/
def UserThreadAllocCtor (t : ThreadState) : Option ThreadState :=
  match t.slot with
  | some _ => none
  | none => some { t with slot := some Allocator.init }

/-- `UserThreadAlloc::~UserThreadAlloc` (lib/IR/User.cpp): asserts the slot
is occupied, destroys the arena (its destructor `delete[]`s every block
blob), and clears the slot. -/
def UserThreadAllocDtor (t : ThreadState) : Option ThreadState :=
  match t.slot with
  | none => none
  | some a =>
      some { t with slot := none,
                    arenaBlobsFreed := t.arenaBlobsFreed ++ a.Blocks.map Block.Blob }

/-- `UserAlloc` (lib/IR/User.cpp): route through the thread-local arena
when installed, else fall back to a raw platform allocation. -/
def UserAllocTL (t : ThreadState) (Size : Nat) : Addr × ThreadState :=
  match t.slot with
  | some a =>
      let r := a.Allocate Size
      (r.1, { t with slot := some r.2 })
  | none => ((t.pfresh, 0), { t with pfresh := t.pfresh + 1 })

/-- `UserFree` (lib/IR/User.cpp): route through the thread-local arena when
installed, else `delete[]` the raw buffer. -/
def UserFreeTL (t : ThreadState) (Ptr : Addr) : ThreadState :=
  match t.slot with
  | some a => { t with slot := some (a.Free Ptr) }
  | none => { t with pfreed := Ptr :: t.pfreed }

end Arena

/-! ## Part 2: the `Use` edge and per-Value use-lists
(include/llvm/IR/Use.h, lib/IR/Use.cpp)

A `Use` object is identified by its address, a `Nat`.  A `Use **` — the
type of the `Prev` field — points either at a Value's head slot
(`Value::UseList`) or at the `Next` field of another Use. -/

/-- A location holding a `Use *`: a Value's use-list head slot, or the
`Next` field of the Use at address `u`. -/
inductive Loc where
  | head (v : Nat)
  | nextOf (u : Nat)
deriving DecidableEq, Repr

/-- The heap of the def-use subsystem.  For each Use address: its `Val`,
`Next`, `Prev` and `Parent` fields (Use.h, lines 112-116; all are
null-initialised by the in-class initializers).  For each Value id: its
use-list head slot. -/
structure Mem where
  val : Nat → Option Nat
  next : Nat → Option Nat
  prev : Nat → Option Loc
  parent : Nat → Nat
  heads : Nat → Option Nat

/-- The heap in which no Use has ever been constructed or linked. -/
def Mem.init : Mem :=
  { val := fun _ => none, next := fun _ => none, prev := fun _ => none,
    parent := fun _ => 0, heads := fun _ => none }

/-- Dereference a `Use **`. -/
def Mem.readLoc (m : Mem) : Loc → Option Nat
  | .head v => m.heads v
  | .nextOf u => m.next u

/-- Store through a `Use **`. -/
def Mem.writeLoc (m : Mem) : Loc → Option Nat → Mem
  | .head v, x => { m with heads := fun w => if w = v then x else m.heads w }
  | .nextOf u, x => { m with next := fun w => if w = u then x else m.next w }

/-- `Use::setPrev`. -/
def Mem.setPrev (m : Mem) (u : Nat) (l : Loc) : Mem :=
  { m with prev := fun w => if w = u then some l else m.prev w }

/-- Assign the `Val` field of the Use at `u` (no list manipulation). -/
def Mem.setVal (m : Mem) (u : Nat) (v : Option Nat) : Mem :=
  { m with val := fun w => if w = u then v else m.val w }

/-- Assign the `Next` field of the Use at `u`. -/
def Mem.setNext (m : Mem) (u : Nat) (x : Option Nat) : Mem :=
  { m with next := fun w => if w = u then x else m.next w }

/-- `Use::addToList(Use **List)` (Use.h, lines 120-126):
`Next = *List; if (Next) Next->setPrev(&Next); setPrev(List); *List = this`. -/
def Mem.addToList (m : Mem) (u : Nat) (l : Loc) : Mem :=
  let n := m.readLoc l
  let m1 := m.setNext u n
  let m2 := match n with
    | some w => m1.setPrev w (.nextOf u)
    | none => m1
  (m2.setPrev u l).writeLoc l (some u)

/-- `Use::removeFromList` (Use.h, lines 127-132):
`Use **StrippedPrev = Prev; *StrippedPrev = Next;
if (Next) Next->setPrev(StrippedPrev)`.  `Prev` is a raw pointer that the
subsystem only dereferences on Uses that are linked; a null `Prev` (never
dereferenced by the source) is modelled as a no-op. -/
def Mem.removeFromList (m : Mem) (u : Nat) : Mem :=
  match m.prev u with
  | none => m
  | some l =>
      let m1 := m.writeLoc l (m.next u)
      match m.next u with
      | some w => m1.setPrev w l
      | none => m1

/-- Modelled from the spec: `Value::addUse` (Value.h is not among the
sources); §3: "Exposes an `addUse(Use&)` that splices a Use at the head". -/
def Mem.addUse (m : Mem) (v : Nat) (u : Nat) : Mem :=
  m.addToList u (.head v)

/-- Modelled from the spec: `Use::set` (declared in Use.h line 87, body in
Value.h which is not among the sources); §4.2: "`set(v)`: if `Val == v`,
no-op.  Otherwise, if `Val` present, remove from its use-list; assign
`Val = v`; if `v` present, splice at head of `v`'s use-list." -/
def Mem.set (m : Mem) (u : Nat) (v : Option Nat) : Mem :=
  if m.val u = v then m
  else
    let m1 := if (m.val u).isSome then m.removeFromList u else m
    let m2 := m1.setVal u v
    match v with
    | some w => m2.addUse w u
    | none => m2

/-- `Use::swap` (lib/IR/Use.cpp, lines 17-39), line by line. -/
def Mem.swap (m : Mem) (a b : Nat) : Mem :=
  if m.val a = m.val b then m
  else
    let m1 := if (m.val a).isSome then m.removeFromList a else m
    let OldVal := m1.val a
    let m2 := match m1.val b with
      | some rv => ((m1.removeFromList b).setVal a (some rv)).addUse rv a
      | none => m1.setVal a none
    match OldVal with
    | some ov => (m2.setVal b (some ov)).addUse ov b
    | none => m2.setVal b none

/-- `Use::~Use` (Use.h, lines 69-72): unlink if `Val` is set.  The
destructor ends the object's lifetime; the dead object's storage is
modelled as reset to the never-constructed state, matching the in-class
initializers a later placement `new (slot) Use(Parent)` re-establishes.
First, clearing the `Prev` field: -/
def Mem.setPrevNull (m : Mem) (u : Nat) : Mem :=
  { m with prev := fun w => if w = u then none else m.prev w }

/-- `Use::~Use` body: unlink when `Val` is set, then end the lifetime. -/
def Mem.destruct (m : Mem) (u : Nat) : Mem :=
  let m1 := if (m.val u).isSome then m.removeFromList u else m
  ((m1.setVal u none).setNext u none).setPrevNull u

/-- Placement `new (slot) Use(Parent)` (Use.h, line 75 with the in-class
initializers of lines 112-115): `Val`, `Next`, `Prev` null, `Parent` set. -/
def Mem.construct (m : Mem) (u : Nat) (p : Nat) : Mem :=
  { m with
    val := fun w => if w = u then none else m.val w,
    next := fun w => if w = u then none else m.next w,
    prev := fun w => if w = u then none else m.prev w,
    parent := fun w => if w = u then p else m.parent w }

/-- `Use::zap(Start, Stop, del)` (lib/IR/Use.cpp, lines 45-50) destroys the
given Uses from the last down to the first; the `del` release of the
backing storage is tracked at the `UState` layer. -/
def Mem.zap (m : Mem) (us : List Nat) : Mem :=
  us.reverse.foldl Mem.destruct m

/-- One mutation of the heap by the subsystem's operations.  `construct`
only ever targets storage in which no Use is alive (placement `new` runs
on freshly allocated memory, or on a slot whose Use was destroyed). -/
inductive Step : Mem → Mem → Prop where
  | construct (m : Mem) (u p : Nat) (h : m.val u = none) :
      Step m (m.construct u p)
  | set (m : Mem) (u : Nat) (v : Option Nat) : Step m (m.set u v)
  | swapStep (m : Mem) (a b : Nat) : Step m (m.swap a b)
  | destruct (m : Mem) (u : Nat) : Step m (m.destruct u)

/-- Heaps reachable from the empty heap by the subsystem's operations. -/
inductive Reachable : Mem → Prop where
  | init : Reachable Mem.init
  | step {m m2 : Mem} : Reachable m → Step m m2 → Reachable m2

/-- `chain m l us v` holds when, starting from the `Use**` slot `l`, the
Uses listed in `us` form exactly the doubly-linked use-list of Value `v`:
each is reached through the preceding link, carries `Val = v`, and its
`Prev` points back at the slot that points at it. -/
def chain (m : Mem) : Loc → List Nat → Nat → Prop
  | l, [], _ => m.readLoc l = none
  | l, u :: us, v =>
      m.readLoc l = some u ∧ m.val u = some v ∧ m.prev u = some l ∧
        chain m (.nextOf u) us v

/-- The chains of all Values, without the completeness direction: `L v` is
a well-formed use-list of `v` for every Value `v`. -/
structure PreAbs (m : Mem) (L : Nat → List Nat) : Prop where
  chains : ∀ v, chain m (.head v) (L v) v
  nodup : ∀ v, (L v).Nodup

/-- Full abstraction: every Value's use-list is well formed, and every Use
whose `Val` is `v` is linked into `v`'s use-list. -/
structure Abs (m : Mem) (L : Nat → List Nat) : Prop where
  chains : ∀ v, chain m (.head v) (L v) v
  nodup : ∀ v, (L v).Nodup
  complete : ∀ u v, m.val u = some v → u ∈ L v

/-- A well-formed heap: some family of use-lists abstracts it. -/
def WF (m : Mem) : Prop := ∃ L, Abs m L

/-- The use-list family after `Use::set` on the Use `u` whose old `Val` is
`oldv` and new `Val` is `newv`: `u` leaves its old list and is spliced at
the head of the new Value's list. -/
def setL (L : Nat → List Nat) (u : Nat) (oldv newv : Option Nat) :
    Nat → List Nat :=
  if oldv = newv then L
  else fun x =>
    let e := (L x).erase u
    match newv with
    | some w => if x = w then u :: e else e
    | none => e

/-- The use-list family after `Use::swap` of `a` (old `Val` `va`) and `b`
(old `Val` `vb`): both leave their lists, then `a` is spliced at the head
of `vb`'s list and `b` at the head of `va`'s list. -/
def swapL (L : Nat → List Nat) (a b : Nat) (va vb : Option Nat) :
    Nat → List Nat :=
  if va = vb then L
  else fun x =>
    let e := ((L x).erase a).erase b
    let e2 := match vb with
      | some rv => if x = rv then a :: e else e
      | none => e
    match va with
    | some ov => if x = ov then b :: e2 else e2
    | none => e2

/-! ## Part 3: the `User` layer (lib/IR/User.cpp) -/

/-- `sizeof(Use)`: four pointer-sized fields on the 64-bit target. -/
def sizeofUse : Nat := 32

/-- `sizeof(Use *)` / `alignof(void *)`. -/
def ptrSize : Nat := 8

/-- Modelled from the spec: `Value::NumUserOperandsBits` (User.h/Value.h
are not among the sources); §3: "bit-packed count of operands, limited to
`2^NumUserOperandsBits − 1` (choose e.g. 27 bits)". -/
def NumUserOperandsBits : Nat := 27

/-- The two fields of a User visible to this subsystem (§3). -/
structure UserInfo where
  NumUserOperands : Nat
  HasHungOffUses : Bool
deriving DecidableEq, Repr

/-- The state of the User layer: the Use heap, the User objects by
address, the hung-off indirection slots (the inner `Option` is the stored
`Use *`, `none` for null), the `BasicBlock *` cells that travel after a
phi's hung-off Use array, and logs of the releases performed
(`arenaFreed` for `UserFree`, `platformFreed` for `::operator delete`). -/
structure UState where
  mem : Mem
  users : Nat → Option UserInfo
  hungSlots : Nat → Option (Option Nat)
  bbs : Nat → Option Nat
  arenaFreed : List Nat
  platformFreed : List Nat

/-- The addresses of an array of `count` Uses based at `base`. -/
def useRange (base count : Nat) : List Nat :=
  (List.range count).map (fun i => base + sizeofUse * i)

/-- Construct `count` Uses at consecutive addresses from `base`, each with
the given `Parent` (the construction loops of `operator new` and
`allocHungoffUses`). -/
def Mem.constructRange (m : Mem) (base count par : Nat) : Mem :=
  (List.range count).foldl (fun mm i => mm.construct (base + sizeofUse * i) par) m

/-- `Use::zap` at the `UState` layer: destroy the `count` Uses based at
`start`; when `del` is set the array storage goes to `::operator delete`. -/
def UState.zapUses (σ : UState) (start count : Nat) (del : Bool) : UState :=
  { σ with mem := σ.mem.zap (useRange start count),
           platformFreed :=
             if del then start :: σ.platformFreed else σ.platformFreed }

/-- `User::operator new(size_t Size, unsigned Us)` (lib/IR/User.cpp, lines
257-274): one storage request of `Size + sizeof(Use) * Us` bytes whose
base address `base` is the allocator's answer; the `Us` Uses precede the
User object, which starts with `NumUserOperands = Us` and
`HasHungOffUses = false`.  `none` models the failed
`assert(Us < (1u << NumUserOperandsBits))`.  Returns the User address. -/
def operatorNewInline (σ : UState) (base Size Us : Nat) :
    Option (Nat × UState) :=
  if Us < 2 ^ NumUserOperandsBits then
    let Obj := base + sizeofUse * Us
    some (Obj,
      { σ with
        users := fun w => if w = Obj then some ⟨Us, false⟩ else σ.users w,
        mem := σ.mem.constructRange base Us Obj })
  else none

/-- `User::operator new(size_t Size)` (lib/IR/User.cpp, lines 276-291): a
single `Use *` indirection slot precedes the User; the slot starts null,
the User starts with `NumUserOperands = 0` and `HasHungOffUses = true`. -/
def operatorNewHung (σ : UState) (base Size : Nat) : Nat × UState :=
  let Obj := base + ptrSize
  (Obj,
   { σ with
     users := fun w => if w = Obj then some ⟨0, true⟩ else σ.users w,
     hungSlots := fun w => if w = Obj then some none else σ.hungSlots w })

/-- `User::allocHungoffUses(unsigned N, bool IsPhi)` (lib/IR/User.cpp,
lines 46-62): asserts `HasHungOffUses`; allocates `N * sizeof(Use)` (plus
`N * sizeof(BasicBlock*)` when `IsPhi`) standalone at `Begin`, stores
`Begin` into the indirection slot, and constructs the `N` Uses. -/
def allocHungoffUses (σ : UState) (Obj N : Nat) (IsPhi : Bool) (Begin : Nat) :
    Option UState :=
  match σ.users Obj with
  | none => none
  | some info =>
      if info.HasHungOffUses then
        some { σ with
          hungSlots := fun w => if w = Obj then some (some Begin) else σ.hungSlots w,
          mem := σ.mem.constructRange Begin N Obj }
      else none

/-- `std::copy(OldOps, OldOps + OldNumUses, NewOps)` in `growHungoffUses`:
`Use::operator=(const Use &RHS)` is `set(RHS.Val)` (Use.h, lines 93-96),
so each copied slot is properly relinked into its Value's use-list. -/
def Mem.copyUses (m : Mem) (src dst n : Nat) : Mem :=
  (List.range n).foldl
    (fun mm i => mm.set (dst + sizeofUse * i) (mm.val (src + sizeofUse * i))) m

/-- The byte-copy of the parallel `BasicBlock *` array in
`growHungoffUses` (lib/IR/User.cpp, lines 81-85). -/
def UState.copyBBs (σ : UState) (src dst n : Nat) : UState :=
  let f := (List.range n).foldl
    (fun f i => fun w => if w = dst + ptrSize * i then σ.bbs (src + ptrSize * i) else f w)
    σ.bbs
  { σ with bbs := f }

/-- `User::growHungoffUses(unsigned NewNumUses, bool IsPhi)`
(lib/IR/User.cpp, lines 64-87).  `newBase` is the address the standalone
allocation inside `allocHungoffUses` returns.  `none` models a failed
assertion (`HasHungOffUses`, `NewNumUses > OldNumUses`); the model requires
the old operand list to be non-null, which holds whenever
`allocHungoffUses` ran before. -/
def growHungoffUses (σ : UState) (Obj NewNumUses : Nat) (IsPhi : Bool)
    (newBase : Nat) : Option UState :=
  match σ.users Obj with
  | none => none
  | some info =>
      if ¬ info.HasHungOffUses then none
      else
        let OldNumUses := info.NumUserOperands
        if ¬ (NewNumUses > OldNumUses) then none
        else
          match σ.hungSlots Obj with
          | some (some OldOps) =>
              match allocHungoffUses σ Obj NewNumUses IsPhi newBase with
              | none => none
              | some σ1 =>
                  let NewOps := newBase
                  let σ2 := { σ1 with mem := σ1.mem.copyUses OldOps NewOps OldNumUses }
                  let σ3 :=
                    if IsPhi then
                      σ2.copyBBs (OldOps + sizeofUse * OldNumUses)
                        (NewOps + sizeofUse * NewNumUses) OldNumUses
                    else σ2
                  some (σ3.zapUses OldOps OldNumUses true)
          | _ => none

/-- `User::operator delete(void *Usr)` (lib/IR/User.cpp, lines 297-325):
route by `HasHungOffUses`; hung-off zaps the array behind the indirection
slot with release and frees from the slot, inline zaps the
`NumUserOperands` Uses before the User without release and frees from the
array base.  `none` models deleting an address that holds no User. -/
def operatorDelete (σ : UState) (Usr : Nat) : Option UState :=
  match σ.users Usr with
  | none => none
  | some Obj =>
      if Obj.HasHungOffUses then
        match σ.hungSlots Usr with
        | none => none
        | some opt =>
            let σ1 := match opt with
              | some arr => σ.zapUses arr Obj.NumUserOperands true
              | none => σ
            some { σ1 with arenaFreed := (Usr - ptrSize) :: σ1.arenaFreed }
      else
        let Storage := Usr - sizeofUse * Obj.NumUserOperands
        let σ1 := σ.zapUses Storage Obj.NumUserOperands false
        some { σ1 with arenaFreed := Storage :: σ1.arenaFreed }

/-- `User::operator delete(void *Usr, unsigned NumUserOperands)`
(lib/IR/User.cpp, lines 328-339): the two-parameter path used when a
constructor throws.  It reads nothing from the User object: the
caller-supplied count fixes an inline layout unconditionally. -/
def operatorDeleteCounted (σ : UState) (Usr NumUserOperands : Nat) : UState :=
  let Storage := Usr - sizeofUse * NumUserOperands
  let σ1 := σ.zapUses Storage NumUserOperands false
  { σ1 with arenaFreed := Storage :: σ1.arenaFreed }

/-- Modelled from the spec: `User::getOperandList` (User.h is not among
the sources); §4.3: inline operands sit immediately before the User,
hung-off operands are reached through the indirection slot. -/
def UState.getOperandList (σ : UState) (Usr : Nat) : Option Nat :=
  match σ.users Usr with
  | none => none
  | some info =>
      if info.HasHungOffUses then (σ.hungSlots Usr).bind id
      else some (Usr - sizeofUse * info.NumUserOperands)

/-- The loop body of `replaceUsesOfWith`: if operand slot `i` currently
holds `From`, `setOperand(i, To)` — i.e. `Use::set` on the i-th Use. -/
def ruowStep (From To base : Nat) (mm : Mem) (i : Nat) : Mem :=
  if mm.val (base + sizeofUse * i) = some From
  then mm.set (base + sizeofUse * i) (some To) else mm

/-- `User::replaceUsesOfWith(Value *From, Value *To)` (lib/IR/User.cpp,
lines 27-40).  `isCst`/`isGV` stand for `isa<Constant>(this)` /
`isa<GlobalValue>(this)`, class-hierarchy facts outside this subsystem;
`none` models the failed assertion. -/
def replaceUsesOfWith (σ : UState) (Usr : Nat) (isCst isGV : Bool)
    (From To : Nat) : Option UState :=
  if From = To then some σ
  else if isCst ∧ ¬ isGV then none
  else
    match σ.users Usr, σ.getOperandList Usr with
    | some info, some base =>
        let m2 := (List.range info.NumUserOperands).foldl
          (ruowStep From To base) σ.mem
        some { σ with mem := m2 }
    | _, _ => none

/-! ## Field-access lemmas -/

@[simp] theorem readLoc_head (m : Mem) (v : Nat) :
    m.readLoc (.head v) = m.heads v := rfl

@[simp] theorem readLoc_nextOf (m : Mem) (u : Nat) :
    m.readLoc (.nextOf u) = m.next u := rfl

@[simp] theorem setVal_val (m : Mem) (u : Nat) (v : Option Nat) (w : Nat) :
    (m.setVal u v).val w = if w = u then v else m.val w := rfl

@[simp] theorem setVal_next (m : Mem) (u : Nat) (v : Option Nat) :
    (m.setVal u v).next = m.next := rfl

@[simp] theorem setVal_prev (m : Mem) (u : Nat) (v : Option Nat) :
    (m.setVal u v).prev = m.prev := rfl

@[simp] theorem setVal_heads (m : Mem) (u : Nat) (v : Option Nat) :
    (m.setVal u v).heads = m.heads := rfl

@[simp] theorem setVal_parent (m : Mem) (u : Nat) (v : Option Nat) :
    (m.setVal u v).parent = m.parent := rfl

@[simp] theorem setNext_next (m : Mem) (u : Nat) (x : Option Nat) (w : Nat) :
    (m.setNext u x).next w = if w = u then x else m.next w := rfl

@[simp] theorem setNext_val (m : Mem) (u : Nat) (x : Option Nat) :
    (m.setNext u x).val = m.val := rfl

@[simp] theorem setNext_prev (m : Mem) (u : Nat) (x : Option Nat) :
    (m.setNext u x).prev = m.prev := rfl

@[simp] theorem setNext_heads (m : Mem) (u : Nat) (x : Option Nat) :
    (m.setNext u x).heads = m.heads := rfl

@[simp] theorem setNext_parent (m : Mem) (u : Nat) (x : Option Nat) :
    (m.setNext u x).parent = m.parent := rfl

@[simp] theorem setPrev_prev (m : Mem) (u : Nat) (l : Loc) (w : Nat) :
    (m.setPrev u l).prev w = if w = u then some l else m.prev w := rfl

@[simp] theorem setPrev_val (m : Mem) (u : Nat) (l : Loc) :
    (m.setPrev u l).val = m.val := rfl

@[simp] theorem setPrev_next (m : Mem) (u : Nat) (l : Loc) :
    (m.setPrev u l).next = m.next := rfl

@[simp] theorem setPrev_heads (m : Mem) (u : Nat) (l : Loc) :
    (m.setPrev u l).heads = m.heads := rfl

@[simp] theorem setPrev_parent (m : Mem) (u : Nat) (l : Loc) :
    (m.setPrev u l).parent = m.parent := rfl

@[simp] theorem setPrevNull_prev (m : Mem) (u : Nat) (w : Nat) :
    (m.setPrevNull u).prev w = if w = u then none else m.prev w := rfl

@[simp] theorem setPrevNull_val (m : Mem) (u : Nat) :
    (m.setPrevNull u).val = m.val := rfl

@[simp] theorem setPrevNull_next (m : Mem) (u : Nat) :
    (m.setPrevNull u).next = m.next := rfl

@[simp] theorem setPrevNull_heads (m : Mem) (u : Nat) :
    (m.setPrevNull u).heads = m.heads := rfl

@[simp] theorem setPrevNull_parent (m : Mem) (u : Nat) :
    (m.setPrevNull u).parent = m.parent := rfl

@[simp] theorem construct_val (m : Mem) (u p : Nat) (w : Nat) :
    (m.construct u p).val w = if w = u then none else m.val w := rfl

@[simp] theorem construct_next (m : Mem) (u p : Nat) (w : Nat) :
    (m.construct u p).next w = if w = u then none else m.next w := rfl

@[simp] theorem construct_prev (m : Mem) (u p : Nat) (w : Nat) :
    (m.construct u p).prev w = if w = u then none else m.prev w := rfl

@[simp] theorem construct_heads (m : Mem) (u p : Nat) :
    (m.construct u p).heads = m.heads := rfl

@[simp] theorem construct_parent (m : Mem) (u p : Nat) (w : Nat) :
    (m.construct u p).parent w = if w = u then p else m.parent w := rfl

@[simp] theorem writeLoc_val (m : Mem) (l : Loc) (x : Option Nat) :
    (m.writeLoc l x).val = m.val := by cases l <;> rfl

@[simp] theorem writeLoc_prev (m : Mem) (l : Loc) (x : Option Nat) :
    (m.writeLoc l x).prev = m.prev := by cases l <;> rfl

@[simp] theorem writeLoc_parent (m : Mem) (l : Loc) (x : Option Nat) :
    (m.writeLoc l x).parent = m.parent := by cases l <;> rfl

@[simp] theorem readLoc_writeLoc_self (m : Mem) (l : Loc) (x : Option Nat) :
    (m.writeLoc l x).readLoc l = x := by
  cases l <;> simp [Mem.writeLoc, Mem.readLoc]

theorem readLoc_writeLoc_ne (m : Mem) {l l2 : Loc} (x : Option Nat)
    (h : l2 ≠ l) : (m.writeLoc l x).readLoc l2 = m.readLoc l2 := by
  cases l <;> cases l2 <;> simp_all [Mem.writeLoc, Mem.readLoc]

theorem readLoc_setPrev (m : Mem) (u : Nat) (l : Loc) (l2 : Loc) :
    (m.setPrev u l).readLoc l2 = m.readLoc l2 := by cases l2 <;> rfl

theorem readLoc_setVal (m : Mem) (u : Nat) (v : Option Nat) (l2 : Loc) :
    (m.setVal u v).readLoc l2 = m.readLoc l2 := by cases l2 <;> rfl

theorem removeFromList_val (m : Mem) (u : Nat) :
    (m.removeFromList u).val = m.val := by
  unfold Mem.removeFromList
  cases m.prev u with
  | none => rfl
  | some l => cases m.next u <;> simp

theorem removeFromList_parent (m : Mem) (u : Nat) :
    (m.removeFromList u).parent = m.parent := by
  unfold Mem.removeFromList
  cases m.prev u with
  | none => rfl
  | some l => cases m.next u <;> simp

theorem addToList_val (m : Mem) (u : Nat) (l : Loc) :
    (m.addToList u l).val = m.val := by
  unfold Mem.addToList
  cases m.readLoc l <;> simp

theorem addToList_parent (m : Mem) (u : Nat) (l : Loc) :
    (m.addToList u l).parent = m.parent := by
  unfold Mem.addToList
  cases m.readLoc l <;> simp

/-! ## Chain lemmas -/

@[simp] theorem chain_nil (m : Mem) (l : Loc) (v : Nat) :
    chain m l [] v ↔ m.readLoc l = none := Iff.rfl

@[simp] theorem chain_cons (m : Mem) (l : Loc) (u : Nat) (us : List Nat) (v : Nat) :
    chain m l (u :: us) v ↔
      m.readLoc l = some u ∧ m.val u = some v ∧ m.prev u = some l ∧
        chain m (.nextOf u) us v := Iff.rfl

theorem chain_headOpt {m : Mem} {l : Loc} {us : List Nat} {v : Nat}
    (h : chain m l us v) : m.readLoc l = us.head? := by
  cases us with
  | nil => simpa using h
  | cons u us => exact h.1

theorem chain_mem_val {m : Mem} {l : Loc} {us : List Nat} {v : Nat}
    (h : chain m l us v) {u : Nat} (hu : u ∈ us) : m.val u = some v := by
  induction us generalizing l with
  | nil => cases hu
  | cons w ws ih =>
      rcases List.mem_cons.mp hu with rfl | hu
      · exact h.2.1
      · exact ih h.2.2.2 hu

theorem chain_mem_prev {m : Mem} {l : Loc} {us : List Nat} {v : Nat}
    (h : chain m l us v) {u : Nat} (hu : u ∈ us) :
    ∃ l2, m.prev u = some l2 ∧ m.readLoc l2 = some u := by
  induction us generalizing l with
  | nil => cases hu
  | cons w ws ih =>
      rcases List.mem_cons.mp hu with rfl | hu
      · exact ⟨l, h.2.2.1, h.1⟩
      · exact ih h.2.2.2 hu

theorem chain_mem_next_mem {m : Mem} {l : Loc} {us : List Nat} {v : Nat}
    (h : chain m l us v) {u w : Nat} (hu : u ∈ us) (hn : m.next u = some w) :
    w ∈ us := by
  induction us generalizing l with
  | nil => cases hu
  | cons x xs ih =>
      rcases List.mem_cons.mp hu with rfl | hu
      · have hh := chain_headOpt h.2.2.2
        rw [readLoc_nextOf, hn] at hh
        cases xs with
        | nil => simp at hh
        | cons y ys =>
            simp at hh
            simp [hh]
      · exact List.mem_cons_of_mem _ (ih h.2.2.2 hu)

theorem chain_mem_next_prev {m : Mem} {l : Loc} {us : List Nat} {v : Nat}
    (h : chain m l us v) {u w : Nat} (hu : u ∈ us) (hn : m.next u = some w) :
    m.prev w = some (.nextOf u) := by
  induction us generalizing l with
  | nil => cases hu
  | cons x xs ih =>
      rcases List.mem_cons.mp hu with rfl | hu
      · have h4 := h.2.2.2
        cases xs with
        | nil =>
            have : m.next u = none := by simpa using h4
            rw [this] at hn; cases hn
        | cons y ys =>
            have hy : m.next u = some y := by simpa using h4.1
            rw [hy] at hn
            cases hn
            exact h4.2.2.1
      · exact ih h.2.2.2 hu

theorem readLoc_setNext (m : Mem) (u : Nat) (x : Option Nat) (l2 : Loc) :
    (m.setNext u x).readLoc l2 = if l2 = .nextOf u then x else m.readLoc l2 := by
  cases l2 with
  | head v => simp
  | nextOf w =>
      by_cases h : w = u
      · subst h; simp
      · simp [h, Loc.nextOf.injEq]

theorem removeFromList_readLoc (m : Mem) {u : Nat} {l0 : Loc}
    (hpu : m.prev u = some l0) (l2 : Loc) :
    (m.removeFromList u).readLoc l2 =
      if l2 = l0 then m.next u else m.readLoc l2 := by
  unfold Mem.removeFromList
  rw [hpu]
  by_cases h : l2 = l0
  · subst h
    cases hn : m.next u <;>
      simp [hn, readLoc_setPrev, readLoc_writeLoc_self]
  · cases hn : m.next u <;>
      simp [hn, readLoc_setPrev, readLoc_writeLoc_ne m _ h, h]

theorem removeFromList_prev (m : Mem) {u : Nat} {l0 : Loc}
    (hpu : m.prev u = some l0) (w : Nat) :
    (m.removeFromList u).prev w =
      if m.next u = some w then some l0 else m.prev w := by
  unfold Mem.removeFromList
  rw [hpu]
  cases hn : m.next u with
  | none => simp [hn]
  | some x =>
      by_cases h : w = x
      · subst h; simp [hn]
      · simp [hn, h, Ne.symm h]

theorem readLoc_writeLoc (m : Mem) (l : Loc) (x : Option Nat) (l2 : Loc) :
    (m.writeLoc l x).readLoc l2 = if l2 = l then x else m.readLoc l2 := by
  by_cases h : l2 = l
  · subst h; simp
  · simp [readLoc_writeLoc_ne m x h, h]

theorem addToList_readLoc (m : Mem) (u : Nat) (l l2 : Loc) :
    (m.addToList u l).readLoc l2 =
      if l2 = l then some u
      else if l2 = .nextOf u then m.readLoc l
      else m.readLoc l2 := by
  unfold Mem.addToList
  cases hn : m.readLoc l <;>
    simp only [hn, readLoc_writeLoc, readLoc_setPrev, readLoc_setNext] <;>
    split_ifs <;> simp_all

theorem addToList_prev (m : Mem) (u : Nat) (l : Loc) (w : Nat) :
    (m.addToList u l).prev w =
      if w = u then some l
      else if m.readLoc l = some w then some (.nextOf u)
      else m.prev w := by
  unfold Mem.addToList
  by_cases h1 : w = u
  · subst h1
    cases hn : m.readLoc l <;> simp [hn]
  · cases hn : m.readLoc l with
    | none => simp [hn, h1]
    | some x =>
        by_cases h2 : x = w
        · subst h2; simp [hn, h1]
        · simp [hn, h1, h2, Ne.symm h2]

theorem chain_congr {m m2 : Mem} {l : Loc} {us : List Nat} {v : Nat}
    (h : chain m l us v)
    (hl : m2.readLoc l = m.readLoc l)
    (hf : ∀ u ∈ us, m2.val u = m.val u ∧ m2.prev u = m.prev u ∧
      m2.readLoc (.nextOf u) = m.readLoc (.nextOf u)) :
    chain m2 l us v := by
  induction us generalizing l with
  | nil =>
      simp only [chain_nil] at h ⊢
      rw [hl]; exact h
  | cons u us ih =>
      obtain ⟨h1, h2, h3, h4⟩ := h
      obtain ⟨hv, hp, hn⟩ := hf u (by simp)
      refine ⟨hl.trans h1, hv.trans h2, hp.trans h3, ?_⟩
      exact ih h4 hn (fun x hx => hf x (by simp [hx]))

/-- Unlinking a Use that is not in a given chain leaves that chain intact,
provided the Use's own links do not point into the chain. -/
theorem chain_remove_notMem {m : Mem} {l : Loc} {us : List Nat} {v u : Nat}
    (h : chain m l us v) (hu : u ∉ us)
    (hprev : ∀ l2, m.prev u = some l2 → m.readLoc l2 = some u)
    (hnext : ∀ w, m.next u = some w → w ∉ us) :
    chain (m.removeFromList u) l us v := by
  cases hpu : m.prev u with
  | none =>
      unfold Mem.removeFromList
      rw [hpu]
      exact h
  | some l0 =>
      have hrl0 := hprev l0 hpu
      apply chain_congr h
      · rw [removeFromList_readLoc m hpu, if_neg]
        intro hll
        subst hll
        refine hu (List.mem_of_mem_head? ?_)
        rw [← chain_headOpt h, hrl0]
        rfl
      · intro x hx
        refine ⟨by rw [removeFromList_val], ?_, ?_⟩
        · rw [removeFromList_prev m hpu, if_neg]
          intro hnx
          exact hnext x hnx hx
        · rw [removeFromList_readLoc m hpu, if_neg]
          intro hxl0
          rw [← hxl0, readLoc_nextOf] at hrl0
          exact hu (chain_mem_next_mem h hx hrl0)

/-- Unlinking a member of a chain removes exactly that member. -/
theorem chain_remove_mid {m : Mem} {l : Loc} {v u : Nat} {as bs : List Nat}
    (h : chain m l (as ++ u :: bs) v) (hnd : (as ++ u :: bs).Nodup) :
    chain (m.removeFromList u) l (as ++ bs) v := by
  induction as generalizing l with
  | nil =>
      simp only [List.nil_append] at h hnd ⊢
      obtain ⟨h1, h2, h3, h4⟩ := h
      have hu_nin : u ∉ bs := (List.nodup_cons.mp hnd).1
      have hnd2 : bs.Nodup := (List.nodup_cons.mp hnd).2
      cases bs with
      | nil =>
          have hnu : m.next u = none := by simpa using h4
          simp only [chain_nil]
          rw [removeFromList_readLoc m h3, if_pos rfl, hnu]
      | cons w ws =>
          obtain ⟨hw1, hw2, hw3, hw4⟩ := h4
          rw [readLoc_nextOf] at hw1
          have hwnin : w ∉ ws := (List.nodup_cons.mp hnd2).1
          have hchain : chain m (.nextOf u) (w :: ws) v :=
            ⟨by rw [readLoc_nextOf]; exact hw1, hw2, hw3, hw4⟩
          refine ⟨?_, by rw [removeFromList_val]; exact hw2, ?_, ?_⟩
          · rw [removeFromList_readLoc m h3, if_pos rfl, hw1]
          · rw [removeFromList_prev m h3, if_pos hw1]
          · apply chain_congr hw4
            · rw [removeFromList_readLoc m h3, if_neg]
              intro hwl
              rw [← hwl, readLoc_nextOf] at h1
              exact hu_nin (chain_mem_next_mem hchain (by simp) h1)
            · intro x hx
              refine ⟨by rw [removeFromList_val], ?_, ?_⟩
              · rw [removeFromList_prev m h3, if_neg]
                intro hnx
                rw [hw1] at hnx
                cases hnx
                exact hwnin hx
              · rw [removeFromList_readLoc m h3, if_neg]
                intro hxl
                rw [← hxl, readLoc_nextOf] at h1
                exact hu_nin (List.mem_cons_of_mem _ (chain_mem_next_mem hw4 hx h1))
  | cons a as ih =>
      simp only [List.cons_append] at h hnd ⊢
      obtain ⟨h1, h2, h3, h4⟩ := h
      have hna : a ∉ as ++ u :: bs := (List.nodup_cons.mp hnd).1
      have hnd2 := (List.nodup_cons.mp hnd).2
      have hu_mem : u ∈ as ++ u :: bs := by simp
      obtain ⟨l0, hpu, hrl0⟩ := chain_mem_prev h4 hu_mem
      have hua : a ≠ u := by
        intro he
        exact hna (he ▸ hu_mem)
      refine ⟨?_, by rw [removeFromList_val]; exact h2, ?_, ih h4 hnd2⟩
      · rw [removeFromList_readLoc m hpu, if_neg]
        · exact h1
        · intro hll
          rw [← hll, h1] at hrl0
          cases hrl0
          exact hua rfl
      · rw [removeFromList_prev m hpu, if_neg]
        · exact h3
        · intro hnx
          exact hna (chain_mem_next_mem h4 hu_mem hnx)

/-- Splicing an unlisted Use, whose `Val` is already `v`, at the head of
`v`'s use-list extends the chain by that Use. -/
theorem chain_addToList_cons {m : Mem} {v u : Nat} {us : List Nat}
    (h : chain m (.head v) us v) (hnd : us.Nodup) (hu : u ∉ us)
    (hval : m.val u = some v) :
    chain (m.addToList u (.head v)) (.head v) (u :: us) v := by
  have hhd := chain_headOpt h
  refine ⟨?_, ?_, ?_, ?_⟩
  · rw [addToList_readLoc, if_pos rfl]
  · rw [addToList_val]; exact hval
  · rw [addToList_prev, if_pos rfl]
  · cases us with
    | nil =>
        simp only [chain_nil]
        rw [addToList_readLoc, if_neg (by simp), if_pos rfl, hhd]
        rfl
    | cons w ws =>
        have hwu : w ≠ u := fun he => hu (he ▸ List.mem_cons_self w ws)
        have hwnin : w ∉ ws := (List.nodup_cons.mp hnd).1
        obtain ⟨hw1, hw2, hw3, hw4⟩ := h
        have hhw : m.readLoc (.head v) = some w := hw1
        refine ⟨?_, by rw [addToList_val]; exact hw2, ?_, ?_⟩
        · rw [addToList_readLoc, if_neg (by simp), if_pos rfl, hhw]
        · rw [addToList_prev, if_neg hwu, if_pos hhw]
        · apply chain_congr hw4
          · rw [addToList_readLoc, if_neg (by simp), if_neg]
            intro he
            rw [Loc.nextOf.injEq] at he
            exact hwu he
          · intro x hx
            have hxu : x ≠ u := fun he => hu (he ▸ List.mem_cons_of_mem w hx)
            refine ⟨by rw [addToList_val], ?_, ?_⟩
            · rw [addToList_prev, if_neg hxu, if_neg]
              rw [hhw]
              intro he
              cases he
              exact hwnin hx
            · rw [addToList_readLoc, if_neg (by simp), if_neg]
              intro he
              rw [Loc.nextOf.injEq] at he
              exact hxu he

/-- Splicing a Use at the head of `tv`'s use-list leaves any chain that
contains neither the Use nor `tv`'s current head intact. -/
theorem chain_addToList_notMem {m : Mem} {l : Loc} {us : List Nat} {v u tv : Nat}
    (h : chain m l us v) (hu : u ∉ us)
    (hl1 : l ≠ .head tv) (hl2 : l ≠ .nextOf u)
    (hh : ∀ w, m.heads tv = some w → w ∉ us) :
    chain (m.addToList u (.head tv)) l us v := by
  apply chain_congr h
  · rw [addToList_readLoc, if_neg hl1, if_neg hl2]
  · intro x hx
    have hxu : x ≠ u := fun he => hu (he ▸ hx)
    refine ⟨by rw [addToList_val], ?_, ?_⟩
    · rw [addToList_prev, if_neg hxu, if_neg]
      intro he
      rw [readLoc_head] at he
      exact hh x he hx
    · rw [addToList_readLoc, if_neg (by simp), if_neg]
      intro he
      rw [Loc.nextOf.injEq] at he
      exact hxu he

/-! ## Abstraction lemmas: the use-list family across each operation -/

theorem PreAbs.members_val {m : Mem} {L : Nat → List Nat} (h : PreAbs m L)
    {y x : Nat} (hy : y ∈ L x) : m.val y = some x :=
  chain_mem_val (h.chains x) hy

theorem PreAbs.mem_unique {m : Mem} {L : Nat → List Nat} (h : PreAbs m L)
    {y x1 x2 : Nat} (h1 : y ∈ L x1) (h2 : y ∈ L x2) : x1 = x2 := by
  have e1 := h.members_val h1
  have e2 := h.members_val h2
  rw [e1] at e2
  exact Option.some_injective _ e2

theorem PreAbs.not_listed_of_val_none {m : Mem} {L : Nat → List Nat}
    (h : PreAbs m L) {u : Nat} (hv : m.val u = none) : ∀ x, u ∉ L x := by
  intro x hx
  rw [h.members_val hx] at hv
  cases hv

theorem PreAbs.remove {m : Mem} {L : Nat → List Nat} (h : PreAbs m L)
    {u ov : Nat} (hu : u ∈ L ov) :
    PreAbs (m.removeFromList u) (fun x => (L x).erase u) := by
  constructor
  · intro x
    by_cases hx : x = ov
    · subst hx
      obtain ⟨as, bs, he⟩ := List.append_of_mem hu
      have hnd : (as ++ u :: bs).Nodup := he ▸ h.nodup x
      have hch : chain m (.head x) (as ++ u :: bs) x := he ▸ h.chains x
      have hnotas : u ∉ as := by
        intro hin
        have hd := (List.nodup_append.mp hnd).2.2
        exact hd hin (by simp)
      have herase : (L x).erase u = as ++ bs := by
        rw [he, List.erase_append_right _ hnotas, List.erase_cons_head]
      rw [herase]
      exact chain_remove_mid hch hnd
    · have hnin : u ∉ L x := fun hmem => hx (h.mem_unique hmem hu)
      rw [List.erase_of_not_mem hnin]
      apply chain_remove_notMem (h.chains x) hnin
      · intro l2 hpu
        obtain ⟨l0, hp, hr⟩ := chain_mem_prev (h.chains ov) hu
        rw [hpu] at hp
        cases hp
        exact hr
      · intro w hw hwx
        have hwov : w ∈ L ov := chain_mem_next_mem (h.chains ov) hu hw
        exact hx (h.mem_unique hwx hwov)
  · intro x
    exact (h.nodup x).erase u

theorem PreAbs.addHead {m : Mem} {L : Nat → List Nat} (h : PreAbs m L)
    {u tv : Nat} (hu : ∀ x, u ∉ L x) (hval : m.val u = some tv) :
    PreAbs (m.addToList u (.head tv))
      (fun x => if x = tv then u :: L x else L x) := by
  constructor
  · intro x
    by_cases hx : x = tv
    · subst hx
      simp only [if_pos rfl]
      exact chain_addToList_cons (h.chains x) (h.nodup x) (hu x) hval
    · simp only [if_neg hx]
      apply chain_addToList_notMem (h.chains x) (hu x)
      · intro he
        rw [Loc.head.injEq] at he
        exact hx he
      · simp
      · intro w hw hwx
        have hwtv : w ∈ L tv := by
          refine List.mem_of_mem_head? ?_
          rw [← chain_headOpt (h.chains tv), readLoc_head, hw]
          rfl
        exact hx (h.mem_unique hwx hwtv)
  · intro x
    by_cases hx : x = tv
    · subst hx
      simp only [if_pos rfl]
      exact List.nodup_cons.mpr ⟨hu _, h.nodup _⟩
    · simpa [hx] using h.nodup x

theorem PreAbs.frame_setVal {m : Mem} {L : Nat → List Nat} (h : PreAbs m L)
    {u : Nat} (hu : ∀ x, u ∉ L x) (v : Option Nat) :
    PreAbs (m.setVal u v) L := by
  constructor
  · intro x
    apply chain_congr (h.chains x)
    · rw [readLoc_setVal]
    · intro y hy
      have hyu : y ≠ u := fun he => hu x (he ▸ hy)
      exact ⟨by simp [hyu], by simp, by rw [readLoc_setVal]⟩
  · exact h.nodup

theorem PreAbs.frame_clear {m : Mem} {L : Nat → List Nat} (h : PreAbs m L)
    {u : Nat} (hu : ∀ x, u ∉ L x) :
    PreAbs (((m.setVal u none).setNext u none).setPrevNull u) L := by
  constructor
  · intro x
    apply chain_congr (h.chains x)
    · simp [Mem.readLoc]
    · intro y hy
      have hyu : y ≠ u := fun he => hu x (he ▸ hy)
      exact ⟨by simp [hyu], by simp [hyu], by simp [Mem.readLoc, hyu]⟩
  · exact h.nodup

theorem PreAbs.frame_construct {m : Mem} {L : Nat → List Nat} (h : PreAbs m L)
    {u : Nat} (hu : ∀ x, u ∉ L x) (p : Nat) :
    PreAbs (m.construct u p) L := by
  constructor
  · intro x
    apply chain_congr (h.chains x)
    · simp [Mem.readLoc]
    · intro y hy
      have hyu : y ≠ u := fun he => hu x (he ▸ hy)
      exact ⟨by simp [hyu], by simp [hyu], by simp [Mem.readLoc, hyu]⟩
  · exact h.nodup

/-- The unlink-if-linked prelude shared by `set`, `swap` and the Use
destructor. -/
theorem PreAbs.remove_or_id {m : Mem} {L : Nat → List Nat} (h : PreAbs m L)
    {u : Nat} (hcomp : ∀ x, m.val u = some x → u ∈ L x) :
    PreAbs (if (m.val u).isSome then m.removeFromList u else m)
      (fun x => (L x).erase u) := by
  by_cases hs : (m.val u).isSome
  · rw [if_pos hs]
    obtain ⟨ov, hval⟩ := Option.isSome_iff_exists.mp hs
    exact h.remove (hcomp ov hval)
  · rw [if_neg hs]
    have hval : m.val u = none := Option.not_isSome_iff_eq_none.mp hs
    constructor
    · intro x
      rw [List.erase_of_not_mem (h.not_listed_of_val_none hval x)]
      exact h.chains x
    · intro x
      exact (h.nodup x).erase u

theorem erase_not_listed {L : Nat → List Nat} (hnd : ∀ v, (L v).Nodup)
    (u : Nat) : ∀ x, u ∉ (L x).erase u := by
  intro x hx
  exact (((hnd x).mem_erase_iff.mp hx).1) rfl

theorem Abs.toPre {m : Mem} {L : Nat → List Nat} (h : Abs m L) : PreAbs m L :=
  ⟨h.chains, h.nodup⟩

theorem set_val (m : Mem) (u : Nat) (v : Option Nat) (y : Nat) :
    (m.set u v).val y = if y = u then v else m.val y := by
  unfold Mem.set
  by_cases h : m.val u = v
  · rw [if_pos h]
    by_cases hy : y = u
    · rw [if_pos hy, hy, h]
    · rw [if_neg hy]
  · rw [if_neg h]
    cases v with
    | none =>
        by_cases hs : (m.val u).isSome <;>
          simp [hs, removeFromList_val]
    | some w =>
        by_cases hs : (m.val u).isSome <;>
          simp [hs, Mem.addUse, addToList_val, removeFromList_val]

/-- `Use::set` preserves the use-list abstraction, transforming the family
as `setL` describes. -/
theorem Abs.set_abs {m : Mem} {L : Nat → List Nat} (h : Abs m L)
    (u : Nat) (v : Option Nat) :
    Abs (m.set u v) (setL L u (m.val u) v) := by
  by_cases hnoop : m.val u = v
  · have he : m.set u v = m := by unfold Mem.set; rw [if_pos hnoop]
    have hf : setL L u (m.val u) v = L := by unfold setL; rw [if_pos hnoop]
    rw [he, hf]
    exact h
  · have hpre1 : PreAbs (if (m.val u).isSome then m.removeFromList u else m)
        (fun x => (L x).erase u) :=
      h.toPre.remove_or_id (fun x hx => h.complete u x hx)
    have hunl : ∀ x, u ∉ (L x).erase u := erase_not_listed h.nodup u
    have hpre2 := hpre1.frame_setVal hunl v
    have hvalmain : ∀ y, (m.set u v).val y = if y = u then v else m.val y :=
      set_val m u v
    cases v with
    | none =>
        have he : m.set u none =
            ((if (m.val u).isSome then m.removeFromList u else m).setVal u none) := by
          unfold Mem.set
          rw [if_neg hnoop]
        have hfam : setL L u (m.val u) none = fun x => (L x).erase u := by
          unfold setL
          rw [if_neg hnoop]
        rw [he, hfam]
        refine ⟨hpre2.chains, hpre2.nodup, ?_⟩
        intro y x hy
        rw [← he, hvalmain y] at hy
        by_cases hyu : y = u
        · rw [if_pos hyu] at hy
          cases hy
        · rw [if_neg hyu] at hy
          exact (List.mem_erase_of_ne hyu).mpr (h.complete y x hy)
    | some w =>
        have he : m.set u (some w) =
            (((if (m.val u).isSome then m.removeFromList u else m).setVal u
              (some w)).addUse w u) := by
          unfold Mem.set
          rw [if_neg hnoop]
        have hvw : ((if (m.val u).isSome then m.removeFromList u else m).setVal u
            (some w)).val u = some w := by simp
        have hpre3 := hpre2.addHead hunl hvw
        have hfam : setL L u (m.val u) (some w) =
            fun x => if x = w then u :: (L x).erase u else (L x).erase u := by
          unfold setL
          rw [if_neg hnoop]
        rw [he, hfam]
        refine ⟨hpre3.chains, hpre3.nodup, ?_⟩
        intro y x hy
        rw [← he, hvalmain y] at hy
        by_cases hyu : y = u
        · rw [if_pos hyu, Option.some.injEq] at hy
          subst hy
          subst hyu
          rw [if_pos rfl]
          exact List.mem_cons_self _ _
        · rw [if_neg hyu] at hy
          have hyL := (List.mem_erase_of_ne hyu).mpr (h.complete y x hy)
          by_cases hxw : x = w
          · rw [if_pos hxw]
            exact List.mem_cons_of_mem _ hyL
          · rw [if_neg hxw]
            exact hyL

/-- The Use destructor preserves the use-list abstraction, erasing the
destroyed Use from its Value's list. -/
theorem Abs.destruct_abs {m : Mem} {L : Nat → List Nat} (h : Abs m L)
    (u : Nat) :
    Abs (m.destruct u) (fun x => (L x).erase u) := by
  have hpre1 : PreAbs (if (m.val u).isSome then m.removeFromList u else m)
      (fun x => (L x).erase u) :=
    h.toPre.remove_or_id (fun x hx => h.complete u x hx)
  have hunl : ∀ x, u ∉ (L x).erase u := erase_not_listed h.nodup u
  have hpre2 := hpre1.frame_clear hunl
  refine ⟨hpre2.chains, hpre2.nodup, ?_⟩
  intro y x hy
  have hval : (m.destruct u).val y = if y = u then none else m.val y := by
    unfold Mem.destruct
    by_cases hs : (m.val u).isSome <;> by_cases hyu : y = u <;>
      simp [hs, hyu, removeFromList_val]
  rw [hval] at hy
  by_cases hyu : y = u
  · rw [if_pos hyu] at hy
    cases hy
  · rw [if_neg hyu] at hy
    exact (List.mem_erase_of_ne hyu).mpr (h.complete y x hy)

/-- Placement-new of a Use on dead storage preserves the abstraction. -/
theorem Abs.construct_abs {m : Mem} {L : Nat → List Nat} (h : Abs m L)
    {u : Nat} (hval : m.val u = none) (p : Nat) :
    Abs (m.construct u p) L := by
  have hunl := h.toPre.not_listed_of_val_none hval
  have hpre := h.toPre.frame_construct hunl p
  refine ⟨hpre.chains, hpre.nodup, ?_⟩
  intro y x hy
  rw [construct_val] at hy
  by_cases hyu : y = u
  · rw [if_pos hyu] at hy
    cases hy
  · rw [if_neg hyu] at hy
    exact h.complete y x hy

theorem swap_val (m : Mem) (a b y : Nat) :
    (m.swap a b).val y =
      if y = b then m.val a else if y = a then m.val b else m.val y := by
  unfold Mem.swap
  by_cases hnoop : m.val a = m.val b
  · rw [if_pos hnoop]
    split_ifs with h1 h2 <;> simp_all
  · rw [if_neg hnoop]
    by_cases hs : (m.val a).isSome <;>
      cases hb : m.val b <;> cases ha : m.val a <;>
        simp_all [Mem.addUse, addToList_val, removeFromList_val]

/-- `Use::swap` preserves the use-list abstraction, transforming the family
as `swapL` describes. -/
theorem Abs.swap_abs {m : Mem} {L : Nat → List Nat} (h : Abs m L) (a b : Nat) :
    Abs (m.swap a b) (swapL L a b (m.val a) (m.val b)) := by
  by_cases hnoop : m.val a = m.val b
  · have he : m.swap a b = m := by unfold Mem.swap; rw [if_pos hnoop]
    have hf : swapL L a b (m.val a) (m.val b) = L := by
      unfold swapL; rw [if_pos hnoop]
    rw [he, hf]
    exact h
  · have hab : a ≠ b := fun heq => hnoop (by rw [heq])
    have hvmain : ∀ y, (m.swap a b).val y =
        if y = b then m.val a else if y = a then m.val b else m.val y :=
      swap_val m a b
    have hanl : ∀ x, a ∉ (L x).erase a := erase_not_listed h.nodup a
    cases hb : m.val b with
    | some rv =>
        -- `b` leaves `rv`'s list, `a` is spliced at `rv`'s head
        have hbmem : b ∈ L rv := h.complete b rv hb
        cases ha : m.val a with
        | some ov =>
            have hovrv : ov ≠ rv := fun he2 => hnoop (by rw [ha, hb, he2])
            have he : m.swap a b =
                ((((m.removeFromList a).removeFromList b).setVal a
                  (some rv)).addUse rv a |>.setVal b (some ov)).addUse ov b := by
              unfold Mem.swap
              rw [if_neg hnoop]
              simp only [ha, hb, removeFromList_val, Option.isSome_some, if_true]
            have hpre1 : PreAbs (m.removeFromList a) (fun x => (L x).erase a) :=
              h.toPre.remove (h.complete a ov ha)
            have hbE : b ∈ (L rv).erase a := (List.mem_erase_of_ne hab.symm).mpr hbmem
            have hpre2 := hpre1.remove hbE
            have hanl2 : ∀ x, a ∉ ((L x).erase a).erase b :=
              fun x hx => hanl x (List.mem_of_mem_erase hx)
            have hbnl2 : ∀ x, b ∉ ((L x).erase a).erase b :=
              erase_not_listed hpre1.nodup b
            have hpre3 := hpre2.frame_setVal hanl2 (some rv)
            have hva : (((m.removeFromList a).removeFromList b).setVal a
                (some rv)).val a = some rv := by simp
            have hpre4 := hpre3.addHead hanl2 hva
            have hbnl4 : ∀ x, b ∉ (if x = rv then a :: ((L x).erase a).erase b
                else ((L x).erase a).erase b) := by
              intro x
              by_cases hx : x = rv
              · subst hx
                simp [Ne.symm hab, hbnl2 x]
              · simp [hx, hbnl2 x]
            have hpre5 := hpre4.frame_setVal hbnl4 (some ov)
            have hvb : ((((m.removeFromList a).removeFromList b).setVal a
                (some rv)).addUse rv a |>.setVal b (some ov)).val b = some ov := by
              simp
            have hpre6 := hpre5.addHead hbnl4 hvb
            have hfam : swapL L a b (some ov) (some rv) =
                fun x => if x = ov then
                  b :: (if x = rv then a :: ((L x).erase a).erase b
                        else ((L x).erase a).erase b)
                else (if x = rv then a :: ((L x).erase a).erase b
                      else ((L x).erase a).erase b) := by
              unfold swapL
              rw [if_neg (by simp [hovrv])]
            rw [he, hfam]
            refine ⟨hpre6.chains, hpre6.nodup, ?_⟩
            intro y x hy
            rw [← he, hvmain y] at hy
            by_cases hyb : y = b
            · rw [if_pos hyb, ha, Option.some.injEq] at hy
              subst hy
              subst hyb
              rw [if_pos rfl]
              exact List.mem_cons_self _ _
            · rw [if_neg hyb] at hy
              by_cases hya : y = a
              · rw [if_pos hya, hb, Option.some.injEq] at hy
                subst hy
                subst hya
                rw [if_neg hovrv.symm, if_pos rfl]
                exact List.mem_cons_self _ _
              · rw [if_neg hya] at hy
                have hyL : y ∈ ((L x).erase a).erase b :=
                  (List.mem_erase_of_ne hyb).mpr
                    ((List.mem_erase_of_ne hya).mpr (h.complete y x hy))
                by_cases hxov : x = ov
                · rw [if_pos hxov]
                  refine List.mem_cons_of_mem _ ?_
                  by_cases hxrv : x = rv
                  · rw [if_pos hxrv]; exact List.mem_cons_of_mem _ hyL
                  · rw [if_neg hxrv]; exact hyL
                · rw [if_neg hxov]
                  by_cases hxrv : x = rv
                  · rw [if_pos hxrv]; exact List.mem_cons_of_mem _ hyL
                  · rw [if_neg hxrv]; exact hyL
        | none =>
            -- `a` was unlinked to begin with; only `b`'s edge moves to `a`
            have he : m.swap a b =
                (((m.removeFromList b).setVal a (some rv)).addUse rv a).setVal
                  b none := by
              unfold Mem.swap
              rw [if_neg hnoop]
              simp only [ha, hb, removeFromList_val, Option.isSome_none,
                Bool.false_eq_true, if_false, setVal_val, Mem.addUse,
                addToList_val]
            have hE2 : (fun x => ((L x).erase a).erase b) =
                fun x => (L x).erase b := by
              funext x
              rw [List.erase_of_not_mem (h.toPre.not_listed_of_val_none ha x)]
            have hpre2 : PreAbs (m.removeFromList b)
                (fun x => ((L x).erase a).erase b) := by
              rw [hE2]
              exact h.toPre.remove hbmem
            have hanl2 : ∀ x, a ∉ ((L x).erase a).erase b :=
              fun x hx => hanl x (List.mem_of_mem_erase hx)
            have hbnl2 : ∀ x, b ∉ ((L x).erase a).erase b :=
              erase_not_listed (L := fun v => (L v).erase a)
                (fun v => (h.nodup v).erase a) b
            have hpre3 := hpre2.frame_setVal hanl2 (some rv)
            have hva : ((m.removeFromList b).setVal a (some rv)).val a =
                some rv := by simp
            have hpre4 := hpre3.addHead hanl2 hva
            have hbnl4 : ∀ x, b ∉ (if x = rv then a :: ((L x).erase a).erase b
                else ((L x).erase a).erase b) := by
              intro x
              by_cases hx : x = rv
              · subst hx
                simp [Ne.symm hab, hbnl2 x]
              · simp [hx, hbnl2 x]
            have hpre5 := hpre4.frame_setVal hbnl4 none
            have hfam : swapL L a b none (some rv) =
                fun x => if x = rv then a :: ((L x).erase a).erase b
                  else ((L x).erase a).erase b := by
              unfold swapL
              rw [if_neg (by simp)]
            rw [he, hfam]
            refine ⟨hpre5.chains, hpre5.nodup, ?_⟩
            intro y x hy
            rw [← he, hvmain y] at hy
            by_cases hyb : y = b
            · rw [if_pos hyb, ha] at hy
              cases hy
            · rw [if_neg hyb] at hy
              by_cases hya : y = a
              · rw [if_pos hya, hb, Option.some.injEq] at hy
                subst hy
                subst hya
                rw [if_pos rfl]
                exact List.mem_cons_self _ _
              · rw [if_neg hya] at hy
                have hyL : y ∈ ((L x).erase a).erase b :=
                  (List.mem_erase_of_ne hyb).mpr
                    ((List.mem_erase_of_ne hya).mpr (h.complete y x hy))
                by_cases hxrv : x = rv
                · rw [if_pos hxrv]; exact List.mem_cons_of_mem _ hyL
                · rw [if_neg hxrv]; exact hyL
    | none =>
        -- `b` was unlinked; only `a`'s edge moves to `b`
        cases ha : m.val a with
        | some ov =>
            have he : m.swap a b =
                (((m.removeFromList a).setVal a none).setVal b
                  (some ov)).addUse ov b := by
              unfold Mem.swap
              rw [if_neg hnoop]
              simp only [ha, hb, removeFromList_val, Option.isSome_some, if_true]
            have hpre1 : PreAbs (m.removeFromList a) (fun x => (L x).erase a) :=
              h.toPre.remove (h.complete a ov ha)
            have hbnlL : ∀ x, b ∉ (L x).erase a :=
              fun x hx => (h.toPre.not_listed_of_val_none hb x)
                (List.mem_of_mem_erase hx)
            have hE2 : (fun x => ((L x).erase a).erase b) =
                fun x => (L x).erase a := by
              funext x
              exact List.erase_of_not_mem (hbnlL x)
            have hpre2 := hpre1.frame_setVal hanl none
            have hanl2 : ∀ x, a ∉ (L x).erase a := hanl
            have hpre3 := hpre2.frame_setVal hbnlL (some ov)
            have hvb : (((m.removeFromList a).setVal a none).setVal b
                (some ov)).val b = some ov := by simp
            have hpre4 := hpre3.addHead hbnlL hvb
            have hfam : swapL L a b (some ov) none =
                fun x => if x = ov then b :: (L x).erase a
                  else (L x).erase a := by
              unfold swapL
              rw [if_neg (by simp)]
              funext x
              rw [show ((L x).erase a).erase b = (L x).erase a from
                List.erase_of_not_mem (hbnlL x)]
            rw [he, hfam]
            refine ⟨hpre4.chains, hpre4.nodup, ?_⟩
            intro y x hy
            rw [← he, hvmain y] at hy
            by_cases hyb : y = b
            · rw [if_pos hyb, ha, Option.some.injEq] at hy
              subst hy
              subst hyb
              rw [if_pos rfl]
              exact List.mem_cons_self _ _
            · rw [if_neg hyb] at hy
              by_cases hya : y = a
              · rw [if_pos hya, hb] at hy
                cases hy
              · rw [if_neg hya] at hy
                have hyL : y ∈ (L x).erase a :=
                  (List.mem_erase_of_ne hya).mpr (h.complete y x hy)
                by_cases hxov : x = ov
                · rw [if_pos hxov]; exact List.mem_cons_of_mem _ hyL
                · rw [if_neg hxov]; exact hyL
        | none =>
            exact absurd (ha.trans hb.symm) hnoop

theorem abs_init : Abs Mem.init (fun _ => []) := by
  refine ⟨fun v => ?_, fun v => List.nodup_nil, fun u v hv => ?_⟩
  · simp [chain, Mem.init, Mem.readLoc]
  · simp [Mem.init] at hv

theorem reachable_wf {m : Mem} (h : Reachable m) : WF m := by
  induction h with
  | init => exact ⟨fun _ => [], abs_init⟩
  | step hr hs ih =>
      obtain ⟨L, hL⟩ := ih
      cases hs with
      | construct u p hval => exact ⟨L, hL.construct_abs hval p⟩
      | set u v => exact ⟨_, hL.set_abs u v⟩
      | swapStep a b => exact ⟨_, hL.swap_abs a b⟩
      | destruct u => exact ⟨_, hL.destruct_abs u⟩

theorem Abs.count_eq {m : Mem} {L : Nat → List Nat} (h : Abs m L)
    (v u : Nat) :
    (L v).count u = if m.val u = some v then 1 else 0 := by
  by_cases hv : m.val u = some v
  · rw [if_pos hv]
    exact List.count_eq_one_of_mem (h.nodup v) (h.complete u v hv)
  · rw [if_neg hv]
    apply List.count_eq_zero_of_not_mem
    intro hmem
    exact hv (h.toPre.members_val hmem)

theorem Abs.linked_prev {m : Mem} {L : Nat → List Nat} (h : Abs m L)
    {u v : Nat} (hv : m.val u = some v) :
    ∃ l, m.prev u = some l ∧ m.readLoc l = some u :=
  chain_mem_prev (h.chains v) (h.complete u v hv)

theorem Abs.linked_next_prev {m : Mem} {L : Nat → List Nat} (h : Abs m L)
    {u v w : Nat} (hv : m.val u = some v) (hn : m.next u = some w) :
    m.prev w = some (.nextOf u) :=
  chain_mem_next_prev (h.chains v) (h.complete u v hv) hn

theorem swap_swap_val (m : Mem) (a b : Nat) :
    ((m.swap a b).swap a b).val = m.val := by
  funext y
  by_cases hab : a = b
  · subst hab
    simp only [swap_val]
    split_ifs <;> simp_all
  · simp only [swap_val]
    split_ifs <;> simp_all

/-! ## Claim theorems -/

/-- C1: in every heap reachable by the subsystem's operations (Use
construction on dead storage, `Use::set`/`setOperand`, `Use::swap`, Use
destruction as performed by `Use::zap` and User destruction), every Value's
use-list is a well-formed doubly-linked chain holding each Use with
`Val = V` exactly once, every linked Use's `Prev` points at the slot that
points back at it (`*U.Prev == U`), and a present `Next` satisfies
`U.Next.Prev == &U.Next`. -/
theorem C1_use_list_invariant {m : Mem} (h : Reachable m) :
    ∃ L : Nat → List Nat,
      (∀ v, chain m (.head v) (L v) v) ∧
      (∀ v, (L v).Nodup) ∧
      (∀ v u, (L v).count u = if m.val u = some v then 1 else 0) ∧
      (∀ u v, m.val u = some v →
        (∃ l, m.prev u = some l ∧ m.readLoc l = some u) ∧
        (∀ w, m.next u = some w → m.prev w = some (.nextOf u))) := by
  obtain ⟨L, hL⟩ := reachable_wf h
  exact ⟨L, hL.chains, hL.nodup, fun v u => hL.count_eq v u,
    fun u v hv => ⟨hL.linked_prev hv,
      fun w hw => hL.linked_next_prev hv hw⟩⟩

/-- Witness for C1 at the reachable heap `Mem.init.set 0 (some 1)`. -/
theorem C1_use_list_invariant_witness :
    ∃ L : Nat → List Nat,
      (∀ v, chain (Mem.init.set 0 (some 1)) (.head v) (L v) v) ∧
      (∀ v, (L v).Nodup) ∧
      (∀ v u, (L v).count u =
        if (Mem.init.set 0 (some 1)).val u = some v then 1 else 0) ∧
      (∀ u v, (Mem.init.set 0 (some 1)).val u = some v →
        (∃ l, (Mem.init.set 0 (some 1)).prev u = some l ∧
          (Mem.init.set 0 (some 1)).readLoc l = some u) ∧
        (∀ w, (Mem.init.set 0 (some 1)).next u = some w →
          (Mem.init.set 0 (some 1)).prev w = some (.nextOf u))) :=
  C1_use_list_invariant
    (Reachable.step Reachable.init (Step.set Mem.init 0 (some 1)))

/-- C6 counterexample: with value 0's use-list `[1, 0]` (Use 1 at the
head) and value 1's use-list `[2]`, swapping Uses 0 and 2 twice ends with
value 0's head slot pointing at Use 0, not at Use 1 as before: the double
swap does not restore the lists' exact state (only their membership). -/
theorem C6_counterexample :
    (((Mem.init.set 0 (some 0)).set 1 (some 0)).set 2 (some 1)).val 0 ≠
      (((Mem.init.set 0 (some 0)).set 1 (some 0)).set 2 (some 1)).val 2 ∧
    (((((Mem.init.set 0 (some 0)).set 1 (some 0)).set 2
        (some 1)).swap 0 2).swap 0 2).heads 0 ≠
      ((((Mem.init.set 0 (some 0)).set 1 (some 0)).set 2 (some 1))).heads 0 := by
  decide

/-- C6 (amended): `Use::swap` is a no-op when both Uses reference the same
Value (in particular `u.swap(u)` changes nothing); when the Values differ,
each Use takes the other's former Value and is linked into the other's
former Value's use-list; and a second `a.swap(b)` restores every Use's
`Val` field and with it every Value's use-list membership — but not
necessarily the order inside a list, as re-spliced Uses sit at the head. -/
theorem C6_swap_algebra {m : Mem} {L : Nat → List Nat} (h : Abs m L)
    (a b : Nat) :
    (m.val a = m.val b → m.swap a b = m) ∧
    m.swap a a = m ∧
    (m.swap a b).val b = m.val a ∧
    (m.swap a b).val a = (if a = b then m.val a else m.val b) ∧
    Abs (m.swap a b) (swapL L a b (m.val a) (m.val b)) ∧
    (m.val a ≠ m.val b →
      (∀ rv, m.val b = some rv → a ∈ swapL L a b (m.val a) (m.val b) rv) ∧
      (∀ ov, m.val a = some ov → b ∈ swapL L a b (m.val a) (m.val b) ov)) ∧
    ((m.swap a b).swap a b).val = m.val ∧
    ∃ L2, Abs ((m.swap a b).swap a b) L2 ∧ ∀ v u, u ∈ L2 v ↔ u ∈ L v := by
  refine ⟨fun hv => by unfold Mem.swap; rw [if_pos hv],
    by unfold Mem.swap; rw [if_pos rfl],
    by rw [swap_val]; simp,
    by rw [swap_val]; by_cases hab : a = b <;> simp [hab],
    h.swap_abs a b, ?_, swap_swap_val m a b, ?_⟩
  · intro hne
    constructor
    · intro rv hrv
      rw [hrv] at hne ⊢
      cases hva : m.val a with
      | none => simp [swapL]
      | some ov =>
          rw [hva] at hne
          by_cases hro : rv = ov
          · exact absurd (by rw [hro]) hne
          · simp [swapL, hne, hro]
    · intro ov hov
      rw [hov] at hne ⊢
      cases hvb : m.val b with
      | none => simp [swapL]
      | some rv =>
          rw [hvb] at hne
          by_cases hro : ov = rv
          · exact absurd (by rw [hro]) hne
          · simp [swapL, hne, hro]
  · refine ⟨_, (h.swap_abs a b).swap_abs a b, fun v u => ?_⟩
    constructor
    · intro hu
      have hv := ((h.swap_abs a b).swap_abs a b).toPre.members_val hu
      rw [swap_swap_val] at hv
      exact h.complete u v hv
    · intro hu
      have hv := h.toPre.members_val hu
      refine ((h.swap_abs a b).swap_abs a b).complete u v ?_
      rw [swap_swap_val]
      exact hv

/-- Witness for C6 at the empty heap: self-swap is the identity. -/
theorem C6_swap_algebra_witness : Mem.init.swap 0 0 = Mem.init :=
  (C6_swap_algebra abs_init 0 0).2.1

theorem set_parent (m : Mem) (u : Nat) (v : Option Nat) :
    (m.set u v).parent = m.parent := by
  unfold Mem.set
  by_cases h : m.val u = v
  · rw [if_pos h]
  · rw [if_neg h]
    cases v <;> by_cases hs : (m.val u).isSome <;>
      simp [hs, Mem.addUse, addToList_parent, removeFromList_parent]

theorem ruowStep_val (From To base : Nat) (mm : Mem) (i y : Nat) :
    (ruowStep From To base mm i).val y =
      if y = base + sizeofUse * i ∧ mm.val (base + sizeofUse * i) = some From
      then some To else mm.val y := by
  unfold ruowStep
  by_cases hc : mm.val (base + sizeofUse * i) = some From
  · rw [if_pos hc, set_val]
    by_cases hy : y = base + sizeofUse * i
    · rw [if_pos hy, if_pos ⟨hy, hc⟩]
    · rw [if_neg hy, if_neg (fun hh => hy hh.1)]
  · rw [if_neg hc, if_neg (fun hh => hc hh.2)]

theorem ruowStep_parent (From To base : Nat) (mm : Mem) (i : Nat) :
    (ruowStep From To base mm i).parent = mm.parent := by
  unfold ruowStep
  by_cases hc : mm.val (base + sizeofUse * i) = some From
  · rw [if_pos hc, set_parent]
  · rw [if_neg hc]

theorem ruow_fold_parent (From To base : Nat) (xs : List Nat) (m : Mem) :
    (xs.foldl (ruowStep From To base) m).parent = m.parent := by
  induction xs generalizing m with
  | nil => rfl
  | cons i xs ih =>
      rw [List.foldl_cons, ih, ruowStep_parent]

theorem wf_foldl_ruow (From To base : Nat) (xs : List Nat) {m : Mem}
    (h : WF m) : WF (xs.foldl (ruowStep From To base) m) := by
  induction xs generalizing m with
  | nil => exact h
  | cons i xs ih =>
      rw [List.foldl_cons]
      apply ih
      unfold ruowStep
      by_cases hc : m.val (base + sizeofUse * i) = some From
      · rw [if_pos hc]
        obtain ⟨L, hL⟩ := h
        exact ⟨_, hL.set_abs _ _⟩
      · rw [if_neg hc]
        exact h

theorem ruow_fold_val_out (From To base : Nat) (n : Nat) (m : Mem) (y : Nat)
    (hy : ∀ i, i < n → y ≠ base + sizeofUse * i) :
    ((List.range n).foldl (ruowStep From To base) m).val y = m.val y := by
  induction n with
  | zero => simp
  | succ k ih =>
      rw [List.range_succ, List.foldl_append, List.foldl_cons, List.foldl_nil,
        ruowStep_val, if_neg (fun hh => hy k (Nat.lt_succ_self k) hh.1)]
      exact ih (fun i hi => hy i (Nat.lt_succ_of_lt hi))

theorem ruow_fold_val_in (From To base : Nat) {n j : Nat} (hj : j < n)
    (m : Mem) :
    ((List.range n).foldl (ruowStep From To base) m).val
        (base + sizeofUse * j) =
      if m.val (base + sizeofUse * j) = some From then some To
      else m.val (base + sizeofUse * j) := by
  induction n with
  | zero => omega
  | succ k ih =>
      rw [List.range_succ, List.foldl_append, List.foldl_cons, List.foldl_nil,
        ruowStep_val]
      by_cases hjk : j = k
      · subst hjk
        have hout : ((List.range j).foldl (ruowStep From To base) m).val
            (base + sizeofUse * j) = m.val (base + sizeofUse * j) := by
          apply ruow_fold_val_out
          intro i hi he
          have : j = i := by unfold sizeofUse at he; omega
          omega
        rw [hout]
        by_cases hc : m.val (base + sizeofUse * j) = some From
        · rw [if_pos ⟨rfl, hc⟩, if_pos hc]
        · rw [if_neg (fun hh => hc hh.2), if_neg hc]
      · have hlt : j < k := by omega
        rw [if_neg]
        · exact ih hlt
        · intro hh
          have : j = k := by
            have := hh.1
            unfold sizeofUse at this
            omega
          exact hjk this

/-- C7: `replaceUsesOfWith(from, to)` is a no-op when `from == to` (it
returns before the constant check); a compile-time constant that is not a
global fails the assertion; otherwise every operand slot holding `from` is
rewritten via `setOperand(slot, to)`, all other slots and the `Parent`
structure are unchanged, and afterwards `from`'s use-list contains no Use
of this User while every rewritten slot's Use is linked into `to`'s
use-list. -/
theorem C7_replaceUsesOfWith (σ : UState) {L : Nat → List Nat}
    (habs : Abs σ.mem L) (Usr : Nat) (isCst isGV : Bool) (From To : Nat)
    {info : UserInfo} {base : Nat}
    (hinfo : σ.users Usr = some info)
    (hbase : σ.getOperandList Usr = some base)
    (hops : ∀ u, σ.mem.parent u = Usr →
      u ∈ useRange base info.NumUserOperands) :
    (From = To → replaceUsesOfWith σ Usr isCst isGV From To = some σ) ∧
    (From ≠ To → isCst = true → isGV = false →
      replaceUsesOfWith σ Usr isCst isGV From To = none) ∧
    (From ≠ To → (isCst = true → isGV = true) →
      ∃ σ2, replaceUsesOfWith σ Usr isCst isGV From To = some σ2 ∧
        σ2.users = σ.users ∧
        σ2.mem.parent = σ.mem.parent ∧
        (∀ i, i < info.NumUserOperands →
          σ2.mem.val (base + sizeofUse * i) =
            (if σ.mem.val (base + sizeofUse * i) = some From then some To
             else σ.mem.val (base + sizeofUse * i))) ∧
        (∀ y, (∀ i, i < info.NumUserOperands → y ≠ base + sizeofUse * i) →
          σ2.mem.val y = σ.mem.val y) ∧
        ∃ L2, Abs σ2.mem L2 ∧
          (∀ u, σ.mem.parent u = Usr → u ∉ L2 From) ∧
          (∀ i, i < info.NumUserOperands →
            σ.mem.val (base + sizeofUse * i) = some From →
            (base + sizeofUse * i) ∈ L2 To)) := by
  refine ⟨?_, ?_, ?_⟩
  · intro hFT
    unfold replaceUsesOfWith
    rw [if_pos hFT]
  · intro hFT hc hg
    unfold replaceUsesOfWith
    rw [if_neg hFT, if_pos ⟨hc, by simp [hg]⟩]
  · intro hFT hassert
    have hres : replaceUsesOfWith σ Usr isCst isGV From To =
        some { σ with mem := (List.range info.NumUserOperands).foldl (ruowStep From To base) σ.mem } := by
      unfold replaceUsesOfWith
      rw [if_neg hFT, if_neg, hinfo, hbase]
      intro hcg
      rw [hassert hcg.1] at hcg
      exact hcg.2 rfl
    refine ⟨_, hres, rfl, ruow_fold_parent _ _ _ _ _, ?_, ?_, ?_⟩
    · intro i hi
      exact ruow_fold_val_in From To base hi σ.mem
    · intro y hy
      exact ruow_fold_val_out From To base _ σ.mem y hy
    · obtain ⟨L2, hL2⟩ := wf_foldl_ruow From To base
        (List.range info.NumUserOperands) ⟨L, habs⟩
      refine ⟨L2, hL2, ?_, ?_⟩
      · intro u hpar hmem
        have hval2 := hL2.toPre.members_val hmem
        obtain ⟨i, hi, hu⟩ : ∃ i, i < info.NumUserOperands ∧
            u = base + sizeofUse * i := by
          have := hops u hpar
          unfold useRange at this
          obtain ⟨i, hi, he⟩ := List.mem_map.mp this
          exact ⟨i, List.mem_range.mp hi, he.symm⟩
        subst hu
        rw [ruow_fold_val_in From To base hi σ.mem] at hval2
        by_cases hc : σ.mem.val (base + sizeofUse * i) = some From
        · rw [if_pos hc, Option.some.injEq] at hval2
          exact hFT hval2.symm
        · rw [if_neg hc] at hval2
          exact hc hval2
      · intro i hi hfrom
        apply hL2.complete
        rw [ruow_fold_val_in From To base hi σ.mem, if_pos hfrom]

/-- Witness for C7: a zero-operand inline User at address 1 in the empty
heap; `replaceUsesOfWith(0, 0)` is the identity. -/
theorem C7_replaceUsesOfWith_witness :
    replaceUsesOfWith
      ⟨Mem.init, fun w => if w = 1 then some ⟨0, false⟩ else none,
        fun _ => none, fun _ => none, [], []⟩ 1 false false 0 0 =
      some ⟨Mem.init, fun w => if w = 1 then some ⟨0, false⟩ else none,
        fun _ => none, fun _ => none, [], []⟩ :=
  (@C7_replaceUsesOfWith
    ⟨Mem.init, fun w => if w = 1 then some ⟨0, false⟩ else none,
      fun _ => none, fun _ => none, [], []⟩
    (fun _ => []) abs_init 1 false false 0 0
    ⟨0, false⟩ 1
    (by simp)
    (by simp [UState.getOperandList, sizeofUse])
    (by intro u hp; simp [Mem.init] at hp)).1 rfl

/-! ## User-layer helper lemmas -/

theorem mem_useRange {u base count : Nat} :
    u ∈ useRange base count ↔ ∃ i, i < count ∧ u = base + sizeofUse * i := by
  unfold useRange
  constructor
  · intro h
    obtain ⟨i, hi, he⟩ := List.mem_map.mp h
    exact ⟨i, List.mem_range.mp hi, he.symm⟩
  · intro ⟨i, hi, he⟩
    exact List.mem_map.mpr ⟨i, List.mem_range.mpr hi, he.symm⟩

theorem destruct_val (m : Mem) (u y : Nat) :
    (m.destruct u).val y = if y = u then none else m.val y := by
  unfold Mem.destruct
  by_cases hs : (m.val u).isSome <;> by_cases hy : y = u <;>
    simp [hs, hy, removeFromList_val]

theorem destruct_parent (m : Mem) (u : Nat) :
    (m.destruct u).parent = m.parent := by
  unfold Mem.destruct
  by_cases hs : (m.val u).isSome <;> simp [hs, removeFromList_parent]

theorem foldl_destruct_val (xs : List Nat) (m : Mem) (y : Nat) :
    (xs.foldl Mem.destruct m).val y = if y ∈ xs then none else m.val y := by
  induction xs generalizing m with
  | nil => simp
  | cons u xs ih =>
      rw [List.foldl_cons, ih]
      by_cases hy : y ∈ xs
      · rw [if_pos hy, if_pos (List.mem_cons_of_mem _ hy)]
      · rw [if_neg hy, destruct_val]
        by_cases hyu : y = u
        · rw [if_pos hyu, if_pos (by simp [hyu])]
        · rw [if_neg hyu, if_neg (by simp [hyu, hy])]

theorem foldl_destruct_parent (xs : List Nat) (m : Mem) :
    (xs.foldl Mem.destruct m).parent = m.parent := by
  induction xs generalizing m with
  | nil => rfl
  | cons u xs ih =>
      rw [List.foldl_cons, ih, destruct_parent]

theorem zap_val (m : Mem) (us : List Nat) (y : Nat) :
    (m.zap us).val y = if y ∈ us then none else m.val y := by
  unfold Mem.zap
  rw [foldl_destruct_val]
  by_cases hy : y ∈ us <;> simp [hy]

theorem zap_parent (m : Mem) (us : List Nat) :
    (m.zap us).parent = m.parent := by
  unfold Mem.zap
  rw [foldl_destruct_parent]

theorem wf_foldl_destruct (xs : List Nat) {m : Mem} (h : WF m) :
    WF (xs.foldl Mem.destruct m) := by
  induction xs generalizing m with
  | nil => exact h
  | cons u xs ih =>
      rw [List.foldl_cons]
      apply ih
      obtain ⟨L, hL⟩ := h
      exact ⟨_, hL.destruct_abs u⟩

theorem wf_zap {m : Mem} (h : WF m) (us : List Nat) : WF (m.zap us) :=
  wf_foldl_destruct _ h

theorem constructRange_succ (m : Mem) (base k par : Nat) :
    m.constructRange base (k + 1) par =
      (m.constructRange base k par).construct (base + sizeofUse * k) par := by
  unfold Mem.constructRange
  rw [List.range_succ, List.foldl_append, List.foldl_cons, List.foldl_nil]

theorem constructRange_val_out (m : Mem) {base count par y : Nat}
    (hy : ∀ i, i < count → y ≠ base + sizeofUse * i) :
    (m.constructRange base count par).val y = m.val y := by
  induction count with
  | zero => rfl
  | succ k ih =>
      rw [constructRange_succ, construct_val,
        if_neg (hy k (Nat.lt_succ_self k))]
      exact ih (fun i hi => hy i (Nat.lt_succ_of_lt hi))

theorem constructRange_val_in (m : Mem) {base count par j : Nat}
    (hj : j < count) :
    (m.constructRange base count par).val (base + sizeofUse * j) = none := by
  induction count with
  | zero => omega
  | succ k ih =>
      rw [constructRange_succ, construct_val]
      by_cases hjk : j = k
      · rw [if_pos (by rw [hjk])]
      · rw [if_neg]
        · exact ih (by omega)
        · intro he
          have : j = k := by unfold sizeofUse at he; omega
          exact hjk this

theorem constructRange_parent_out (m : Mem) {base count par y : Nat}
    (hy : ∀ i, i < count → y ≠ base + sizeofUse * i) :
    (m.constructRange base count par).parent y = m.parent y := by
  induction count with
  | zero => rfl
  | succ k ih =>
      rw [constructRange_succ, construct_parent,
        if_neg (hy k (Nat.lt_succ_self k))]
      exact ih (fun i hi => hy i (Nat.lt_succ_of_lt hi))

theorem constructRange_parent_in (m : Mem) {base count par j : Nat}
    (hj : j < count) :
    (m.constructRange base count par).parent (base + sizeofUse * j) = par := by
  induction count with
  | zero => omega
  | succ k ih =>
      rw [constructRange_succ, construct_parent]
      by_cases hjk : j = k
      · rw [if_pos (by rw [hjk])]
      · rw [if_neg]
        · exact ih (by omega)
        · intro he
          have : j = k := by unfold sizeofUse at he; omega
          exact hjk this

theorem wf_constructRange {m : Mem} (h : WF m) {base count par : Nat}
    (hfresh : ∀ i, i < count → m.val (base + sizeofUse * i) = none) :
    WF (m.constructRange base count par) := by
  induction count with
  | zero => exact h
  | succ k ih =>
      rw [constructRange_succ]
      obtain ⟨L, hL⟩ := ih (fun i hi => hfresh i (Nat.lt_succ_of_lt hi))
      refine ⟨L, hL.construct_abs ?_ par⟩
      rw [constructRange_val_out m]
      · exact hfresh k (Nat.lt_succ_self k)
      · intro i hi he
        have : k = i := by unfold sizeofUse at he; omega
        omega

theorem copyUses_succ (m : Mem) (src dst k : Nat) :
    m.copyUses src dst (k + 1) =
      ((m.copyUses src dst k).set (dst + sizeofUse * k)
        ((m.copyUses src dst k).val (src + sizeofUse * k))) := by
  unfold Mem.copyUses
  rw [List.range_succ, List.foldl_append, List.foldl_cons, List.foldl_nil]

theorem copyUses_val_out (m : Mem) {src dst n y : Nat}
    (hy : ∀ i, i < n → y ≠ dst + sizeofUse * i) :
    (m.copyUses src dst n).val y = m.val y := by
  induction n with
  | zero => rfl
  | succ k ih =>
      rw [copyUses_succ, set_val, if_neg (hy k (Nat.lt_succ_self k))]
      exact ih (fun i hi => hy i (Nat.lt_succ_of_lt hi))

theorem copyUses_val_dst (m : Mem) {src dst n j : Nat} (hj : j < n)
    (hdisj : ∀ i i2, i < n → i2 < n →
      src + sizeofUse * i ≠ dst + sizeofUse * i2) :
    (m.copyUses src dst n).val (dst + sizeofUse * j) =
      m.val (src + sizeofUse * j) := by
  induction n with
  | zero => omega
  | succ k ih =>
      rw [copyUses_succ, set_val]
      by_cases hjk : j = k
      · subst hjk
        rw [if_pos rfl, copyUses_val_out m]
        intro i hi he
        exact hdisj j i (Nat.lt_succ_self j) (Nat.lt_succ_of_lt hi) he
      · rw [if_neg]
        · exact ih (by omega)
            (fun i i2 hi hi2 => hdisj i i2 (Nat.lt_succ_of_lt hi)
              (Nat.lt_succ_of_lt hi2))
        · intro he
          have : j = k := by unfold sizeofUse at he; omega
          exact hjk this

theorem copyUses_parent (m : Mem) (src dst n : Nat) :
    (m.copyUses src dst n).parent = m.parent := by
  induction n with
  | zero => rfl
  | succ k ih =>
      rw [copyUses_succ, set_parent, ih]

theorem wf_copyUses {m : Mem} (h : WF m) (src dst n : Nat) :
    WF (m.copyUses src dst n) := by
  induction n with
  | zero => exact h
  | succ k ih =>
      rw [copyUses_succ]
      obtain ⟨L, hL⟩ := ih
      exact ⟨_, hL.set_abs _ _⟩

theorem copyBBs_bbs_in (σ : UState) {src dst n j : Nat} (hj : j < n) :
    (σ.copyBBs src dst n).bbs (dst + ptrSize * j) =
      σ.bbs (src + ptrSize * j) := by
  unfold UState.copyBBs
  induction n with
  | zero => omega
  | succ k ih =>
      rw [List.range_succ, List.foldl_append, List.foldl_cons, List.foldl_nil]
      by_cases hjk : j = k
      · subst hjk
        simp
      · have := ih (by omega)
        simp only at this ⊢
        rw [if_neg]
        · exact this
        · intro he
          have : j = k := by unfold ptrSize at he; omega
          exact hjk this

/-- C3: inline `User::operator new(Size, Us)` with `Us` below
`2^NumUserOperandsBits` lays out exactly `Us` Uses at
`base, base+sizeof(Use), …` immediately before the User object at
`base + sizeof(Use)*Us` inside the single `Size + sizeof(Use)*Us`-byte
storage request, constructs each Use with `Val` null and `Parent` the new
User, and initialises `NumUserOperands = Us`, `HasHungOffUses = false`;
`Us` not fitting the bit-field fails the assertion. -/
theorem C3_inline_construction (σ : UState) {L : Nat → List Nat}
    (habs : Abs σ.mem L) (base Size Us : Nat)
    (hfresh : ∀ i, i < Us → σ.mem.val (base + sizeofUse * i) = none) :
    (Us < 2 ^ NumUserOperandsBits →
      ∃ Obj σ2, operatorNewInline σ base Size Us = some (Obj, σ2) ∧
        Obj = base + sizeofUse * Us ∧
        base + sizeofUse * Us + Size = base + (Size + sizeofUse * Us) ∧
        σ2.users Obj = some ⟨Us, false⟩ ∧
        (∀ w, w ≠ Obj → σ2.users w = σ.users w) ∧
        (∀ i, i < Us → σ2.mem.val (base + sizeofUse * i) = none ∧
          σ2.mem.parent (base + sizeofUse * i) = Obj) ∧
        WF σ2.mem) ∧
    (¬ Us < 2 ^ NumUserOperandsBits →
      operatorNewInline σ base Size Us = none) := by
  constructor
  · intro hUs
    have hres : operatorNewInline σ base Size Us = some (base + sizeofUse * Us,
        { σ with
          users := fun w => if w = base + sizeofUse * Us then some ⟨Us, false⟩ else σ.users w,
          mem := σ.mem.constructRange base Us (base + sizeofUse * Us) }) := by
      unfold operatorNewInline
      rw [if_pos hUs]
    refine ⟨_, _, hres, rfl, by omega, by simp, ?_, ?_, ?_⟩
    · intro w hw
      simp [hw]
    · intro i hi
      exact ⟨constructRange_val_in σ.mem hi, constructRange_parent_in σ.mem hi⟩
    · exact wf_constructRange ⟨L, habs⟩ hfresh
  · intro hUs
    unfold operatorNewInline
    rw [if_neg hUs]

/-- Witness for C3: one operand on fresh storage at base 0. -/
theorem C3_inline_construction_witness :
    (1 < 2 ^ NumUserOperandsBits →
      ∃ Obj σ2, operatorNewInline
        ⟨Mem.init, fun _ => none, fun _ => none, fun _ => none, [], []⟩
        0 8 1 = some (Obj, σ2) ∧
        Obj = 0 + sizeofUse * 1 ∧
        0 + sizeofUse * 1 + 8 = 0 + (8 + sizeofUse * 1) ∧
        σ2.users Obj = some ⟨1, false⟩ ∧
        (∀ w, w ≠ Obj → σ2.users w =
          (⟨Mem.init, fun _ => none, fun _ => none, fun _ => none, [], []⟩ :
            UState).users w) ∧
        (∀ i, i < 1 → σ2.mem.val (0 + sizeofUse * i) = none ∧
          σ2.mem.parent (0 + sizeofUse * i) = Obj) ∧
        WF σ2.mem) ∧
    (¬ 1 < 2 ^ NumUserOperandsBits →
      operatorNewInline
        ⟨Mem.init, fun _ => none, fun _ => none, fun _ => none, [], []⟩
        0 8 1 = none) :=
  C3_inline_construction
    ⟨Mem.init, fun _ => none, fun _ => none, fun _ => none, [], []⟩
    abs_init 0 8 1 (fun i hi => rfl)

/-- C10: the two-parameter `operator delete(Usr, NumUserOperands)` always
frees with the inline layout: it zaps exactly the caller-supplied number of
Uses immediately preceding the User, frees the arena block from that base
with no platform release, and never reads the User object's own
`NumUserOperands` or `HasHungOffUses` — replacing the stored `UserInfo` by
anything (hung-off included) does not change the result. -/
theorem C10_counted_delete (σ : UState) (Usr N : Nat) :
    (∀ f, operatorDeleteCounted { σ with users := f } Usr N =
      { operatorDeleteCounted σ Usr N with users := f }) ∧
    (operatorDeleteCounted σ Usr N).platformFreed = σ.platformFreed ∧
    (operatorDeleteCounted σ Usr N).arenaFreed =
      (Usr - sizeofUse * N) :: σ.arenaFreed ∧
    (∀ y, (operatorDeleteCounted σ Usr N).mem.val y =
      if y ∈ useRange (Usr - sizeofUse * N) N then none else σ.mem.val y) ∧
    (operatorDeleteCounted σ Usr N).mem.parent = σ.mem.parent ∧
    (operatorDeleteCounted σ Usr N).hungSlots = σ.hungSlots ∧
    (operatorDeleteCounted σ Usr N).users = σ.users := by
  refine ⟨fun f => rfl, rfl, rfl, ?_, ?_, rfl, rfl⟩
  · intro y
    exact zap_val σ.mem _ y
  · exact zap_parent σ.mem _

/-- C4: `User::operator delete(Usr)` routes on `HasHungOffUses`.  Inline:
the `NumUserOperands` Uses before the User are zapped with no platform
release and the array base is returned to the arena.  Hung-off: the array
behind the indirection slot is zapped with a platform release of that
array and the slot-plus-User block is returned to the arena.  In both
shapes, afterwards no Value's use-list contains any Use of the destroyed
User. -/
theorem C4_user_destruction (σ : UState) {L : Nat → List Nat}
    (habs : Abs σ.mem L) (Usr : Nat) {info : UserInfo}
    (hinfo : σ.users Usr = some info) (arr : Nat)
    (hslot : info.HasHungOffUses = true → σ.hungSlots Usr = some (some arr))
    (hown : ∀ u, σ.mem.parent u = Usr →
      u ∈ useRange (if info.HasHungOffUses then arr
        else Usr - sizeofUse * info.NumUserOperands) info.NumUserOperands) :
    ∃ σ2, operatorDelete σ Usr = some σ2 ∧
      (info.HasHungOffUses = true →
        σ2.platformFreed = arr :: σ.platformFreed ∧
        σ2.arenaFreed = (Usr - ptrSize) :: σ.arenaFreed) ∧
      (info.HasHungOffUses = false →
        σ2.platformFreed = σ.platformFreed ∧
        σ2.arenaFreed =
          (Usr - sizeofUse * info.NumUserOperands) :: σ.arenaFreed) ∧
      (∀ u, σ.mem.parent u = Usr → σ2.mem.val u = none) ∧
      ∃ L2, Abs σ2.mem L2 ∧ ∀ x u, u ∈ L2 x → σ.mem.parent u ≠ Usr := by
  cases hh : info.HasHungOffUses with
  | true =>
      have hs := hslot hh
      have hres : operatorDelete σ Usr =
          some { σ.zapUses arr info.NumUserOperands true with
            arenaFreed := (Usr - ptrSize) :: σ.arenaFreed } := by
        unfold operatorDelete
        simp [hinfo, hh, hs]
        rfl
      rw [hh] at hown
      refine ⟨_, hres, fun _ => ⟨rfl, rfl⟩, fun hf => Bool.noConfusion hf,
        ?_, ?_⟩
      · intro u hpar
        have hin := hown u hpar
        rw [if_pos rfl] at hin
        show (σ.mem.zap (useRange arr info.NumUserOperands)).val u = none
        rw [zap_val, if_pos hin]
      · obtain ⟨L2, hL2⟩ := wf_zap ⟨L, habs⟩ (useRange arr info.NumUserOperands)
        refine ⟨L2, hL2, ?_⟩
        intro x u hu hpar
        have hval := hL2.toPre.members_val hu
        have hin := hown u hpar
        rw [if_pos rfl] at hin
        rw [zap_val, if_pos hin] at hval
        cases hval
  | false =>
      have hres : operatorDelete σ Usr =
          some { σ.zapUses (Usr - sizeofUse * info.NumUserOperands)
            info.NumUserOperands false with
            arenaFreed :=
              (Usr - sizeofUse * info.NumUserOperands) :: σ.arenaFreed } := by
        unfold operatorDelete
        simp [hinfo, hh]
        rfl
      rw [hh] at hown
      refine ⟨_, hres, fun ht => Bool.noConfusion ht, fun _ => ⟨rfl, rfl⟩,
        ?_, ?_⟩
      · intro u hpar
        have hin := hown u hpar
        rw [if_neg (by simp)] at hin
        show (σ.mem.zap (useRange (Usr - sizeofUse * info.NumUserOperands)
          info.NumUserOperands)).val u = none
        rw [zap_val, if_pos hin]
      · obtain ⟨L2, hL2⟩ := wf_zap ⟨L, habs⟩
          (useRange (Usr - sizeofUse * info.NumUserOperands)
            info.NumUserOperands)
        refine ⟨L2, hL2, ?_⟩
        intro x u hu hpar
        have hval := hL2.toPre.members_val hu
        have hin := hown u hpar
        rw [if_neg (by simp)] at hin
        rw [zap_val, if_pos hin] at hval
        cases hval

/-- Witness for C4: deleting a zero-operand inline User at address 5 in
the empty heap. -/
theorem C4_user_destruction_witness :
    ∃ σ2, operatorDelete
      ⟨Mem.init, fun w => if w = 5 then some ⟨0, false⟩ else none,
        fun _ => none, fun _ => none, [], []⟩ 5 = some σ2 ∧
      ((⟨0, false⟩ : UserInfo).HasHungOffUses = true →
        σ2.platformFreed = 0 :: ([] : List Nat) ∧
        σ2.arenaFreed = (5 - ptrSize) :: ([] : List Nat)) ∧
      ((⟨0, false⟩ : UserInfo).HasHungOffUses = false →
        σ2.platformFreed = ([] : List Nat) ∧
        σ2.arenaFreed = (5 - sizeofUse * (0 : Nat)) :: ([] : List Nat)) ∧
      (∀ u, Mem.init.parent u = 5 → σ2.mem.val u = none) ∧
      ∃ L2, Abs σ2.mem L2 ∧ ∀ x u, u ∈ L2 x → Mem.init.parent u ≠ 5 :=
  @C4_user_destruction
    ⟨Mem.init, fun w => if w = 5 then some ⟨0, false⟩ else none,
      fun _ => none, fun _ => none, [], []⟩
    (fun _ => []) abs_init 5 ⟨0, false⟩ (by simp) 0
    (by intro h; cases h)
    (by intro u hp; simp [Mem.init] at hp)

/-- C5: `growHungoffUses(NewNumUses, IsPhi)` on a hung-off User allocates
fresh storage, transfers the first `OldNumUses` Uses through
`Use::operator=` — i.e. `set`, which relinks each copied Use into its
Value's use-list at the new address, leaving no stale pointers — copies
the parallel `BasicBlock*` array when `IsPhi`, and destroys the old array
with release.  Afterwards each of the first `OldNumUses` slots references
the same Value as before, that Value's use-list holds the Use at its new
address exactly once, and no use-list points into the old storage.
`NewNumUses ≤ OldNumUses` fails the assertion. -/
theorem C5_grow_hungoff (σ : UState) {L : Nat → List Nat}
    (habs : Abs σ.mem L) (Obj : Nat) {info : UserInfo}
    (hinfo : σ.users Obj = some info)
    (hh : info.HasHungOffUses = true)
    (OldOps : Nat) (hslot : σ.hungSlots Obj = some (some OldOps))
    (NewNumUses : Nat) (IsPhi : Bool) (newBase : Nat)
    (hfresh : ∀ i, i < NewNumUses →
      σ.mem.val (newBase + sizeofUse * i) = none)
    (hdisj : ∀ i j, i < info.NumUserOperands → j < NewNumUses →
      OldOps + sizeofUse * i ≠ newBase + sizeofUse * j) :
    (¬ NewNumUses > info.NumUserOperands →
      growHungoffUses σ Obj NewNumUses IsPhi newBase = none) ∧
    (NewNumUses > info.NumUserOperands →
      ∃ σ2, growHungoffUses σ Obj NewNumUses IsPhi newBase = some σ2 ∧
        σ2.platformFreed = OldOps :: σ.platformFreed ∧
        σ2.hungSlots Obj = some (some newBase) ∧
        (∀ i, i < info.NumUserOperands →
          σ2.mem.val (newBase + sizeofUse * i) =
            σ.mem.val (OldOps + sizeofUse * i)) ∧
        (∀ u, u ∈ useRange OldOps info.NumUserOperands →
          σ2.mem.val u = none) ∧
        (IsPhi = true → ∀ i, i < info.NumUserOperands →
          σ2.bbs (newBase + sizeofUse * NewNumUses + ptrSize * i) =
            σ.bbs (OldOps + sizeofUse * info.NumUserOperands + ptrSize * i)) ∧
        ∃ L2, Abs σ2.mem L2 ∧
          (∀ i v, i < info.NumUserOperands →
            σ.mem.val (OldOps + sizeofUse * i) = some v →
            (newBase + sizeofUse * i) ∈ L2 v ∧
            (L2 v).count (newBase + sizeofUse * i) = 1) ∧
          (∀ x u, u ∈ L2 x → u ∉ useRange OldOps info.NumUserOperands)) := by
  constructor
  · intro hng
    unfold growHungoffUses
    simp [hinfo, hh, hng]
  · intro hgrow
    -- the heap after construct, copy, zap
    have hM2val : ∀ i, i < info.NumUserOperands →
        ((σ.mem.constructRange newBase NewNumUses Obj).copyUses OldOps newBase
          info.NumUserOperands).val (newBase + sizeofUse * i) =
        σ.mem.val (OldOps + sizeofUse * i) := by
      intro i hi
      rw [copyUses_val_dst _ hi
        (fun k k2 hk hk2 => hdisj k k2 hk (by omega))]
      exact constructRange_val_out σ.mem
        (fun k hk => hdisj i k hi hk)
    have hnotold : ∀ i, i < info.NumUserOperands →
        (newBase + sizeofUse * i) ∉ useRange OldOps info.NumUserOperands := by
      intro i hi hmem
      obtain ⟨k, hk, he⟩ := mem_useRange.mp hmem
      exact hdisj k i hk (by omega) he.symm
    have hM3val : ∀ i, i < info.NumUserOperands →
        (((σ.mem.constructRange newBase NewNumUses Obj).copyUses OldOps newBase
          info.NumUserOperands).zap (useRange OldOps info.NumUserOperands)).val
          (newBase + sizeofUse * i) =
        σ.mem.val (OldOps + sizeofUse * i) := by
      intro i hi
      rw [zap_val, if_neg (hnotold i hi)]
      exact hM2val i hi
    have hwf3 : WF (((σ.mem.constructRange newBase NewNumUses Obj).copyUses
        OldOps newBase info.NumUserOperands).zap
        (useRange OldOps info.NumUserOperands)) :=
      wf_zap (wf_copyUses (wf_constructRange ⟨L, habs⟩ hfresh) _ _ _) _
    obtain ⟨L2, hL2⟩ := hwf3
    have hmemconc : ∀ i v, i < info.NumUserOperands →
        σ.mem.val (OldOps + sizeofUse * i) = some v →
        (newBase + sizeofUse * i) ∈ L2 v ∧
        (L2 v).count (newBase + sizeofUse * i) = 1 := by
      intro i v hi hv
      have hval : (((σ.mem.constructRange newBase NewNumUses Obj).copyUses
          OldOps newBase info.NumUserOperands).zap
          (useRange OldOps info.NumUserOperands)).val
          (newBase + sizeofUse * i) = some v := by
        rw [hM3val i hi]
        exact hv
      refine ⟨hL2.complete _ _ hval, ?_⟩
      rw [hL2.count_eq, if_pos hval]
    have hnone : ∀ x u, u ∈ L2 x →
        u ∉ useRange OldOps info.NumUserOperands := by
      intro x u hu hmem
      have hval := hL2.toPre.members_val hu
      rw [zap_val, if_pos hmem] at hval
      cases hval
    have holdnone : ∀ u, u ∈ useRange OldOps info.NumUserOperands →
        (((σ.mem.constructRange newBase NewNumUses Obj).copyUses OldOps newBase
          info.NumUserOperands).zap
          (useRange OldOps info.NumUserOperands)).val u = none := by
      intro u hmem
      rw [zap_val, if_pos hmem]
    cases hphi : IsPhi with
    | false =>
        have hres : growHungoffUses σ Obj NewNumUses false newBase =
            some (({ σ with
              hungSlots := fun w => if w = Obj then some (some newBase) else σ.hungSlots w,
              mem := (σ.mem.constructRange newBase NewNumUses Obj).copyUses OldOps newBase info.NumUserOperands } : UState).zapUses
              OldOps info.NumUserOperands true) := by
          unfold growHungoffUses allocHungoffUses
          simp only [hinfo, hh, hslot]
          rw [if_neg (by simp), if_neg (by simp [hgrow]), if_pos trivial]
          rfl
        refine ⟨_, hres, rfl, by simp [UState.zapUses], hM3val, holdnone,
          fun ht => Bool.noConfusion ht, L2, hL2, hmemconc, hnone⟩
    | true =>
        have hres : growHungoffUses σ Obj NewNumUses true newBase =
            some ((({ σ with
              hungSlots := fun w => if w = Obj then some (some newBase) else σ.hungSlots w,
              mem := (σ.mem.constructRange newBase NewNumUses Obj).copyUses OldOps newBase info.NumUserOperands } : UState).copyBBs
              (OldOps + sizeofUse * info.NumUserOperands)
              (newBase + sizeofUse * NewNumUses)
              info.NumUserOperands).zapUses OldOps info.NumUserOperands true) := by
          unfold growHungoffUses allocHungoffUses
          simp only [hinfo, hh, hslot]
          rw [if_neg (by simp), if_neg (by simp [hgrow]), if_pos trivial]
          rfl
        refine ⟨_, hres, rfl, by simp [UState.zapUses, UState.copyBBs],
          hM3val, holdnone, ?_, L2, hL2, hmemconc, hnone⟩
        intro _ i hi
        exact copyBBs_bbs_in _ hi

/-- Witness for C5: growing a hung-off User with zero operands to one. -/
theorem C5_grow_hungoff_witness :
    ∃ σ2, growHungoffUses
      ⟨Mem.init, fun w => if w = 8 then some ⟨0, true⟩ else none,
        fun w => if w = 8 then some (some 100) else none,
        fun _ => none, [], []⟩ 8 1 false 200 = some σ2 ∧
      σ2.platformFreed = [100] ∧
      σ2.hungSlots 8 = some (some 200) ∧
      (∀ i, i < (0 : Nat) →
        σ2.mem.val (200 + sizeofUse * i) = (none : Option Nat)) ∧
      (∀ u, u ∈ useRange 100 0 → σ2.mem.val u = none) ∧
      (false = true → ∀ i, i < (0 : Nat) →
        σ2.bbs (200 + sizeofUse * 1 + ptrSize * i) = (none : Option Nat)) ∧
      ∃ L2, Abs σ2.mem L2 ∧
        (∀ i v, i < (0 : Nat) → (none : Option Nat) = some v →
          (200 + sizeofUse * i) ∈ L2 v ∧
          (L2 v).count (200 + sizeofUse * i) = 1) ∧
        (∀ x u, u ∈ L2 x → u ∉ useRange 100 0) :=
  (@C5_grow_hungoff
    ⟨Mem.init, fun w => if w = 8 then some ⟨0, true⟩ else none,
      fun w => if w = 8 then some (some 100) else none,
      fun _ => none, [], []⟩
    (fun _ => []) abs_init 8 ⟨0, true⟩ rfl rfl 100 rfl 1 false 200
    (fun i hi => rfl)
    (by intro i j hi hj; exact absurd hi (Nat.not_lt_zero i))).2 (by decide)

/-! ## Arena lemmas and claims -/

namespace Arena

theorem Allocate_large (a : Allocator) (S : Nat)
    (h : S > LargeAllocationThreshold) :
    a.Allocate S = ((a.fresh, 0),
      { a with fresh := a.fresh + 1,
               tags := fun q => if q = ((a.fresh, 0) : Addr)
                 then some InvalidBucket else a.tags q }) := by
  unfold Allocator.Allocate
  rw [if_pos h]

/-- C8: a request over `LargeAllocationThreshold` is served standalone by
the platform and tagged `InvalidBucket`; `Free` on an `InvalidBucket` tag
delegates to the platform deallocator and pushes nothing onto any bucket;
repeating the allocation yields fresh platform memory tagged
`InvalidBucket` again, never a cached slot (buckets and blocks are
untouched through the whole sequence). -/
theorem C8_large_bypass (a : Allocator) (S : Nat)
    (h : S > LargeAllocationThreshold) :
    (a.Allocate S).1 = (a.fresh, 0) ∧
    (a.Allocate S).2.tags (a.Allocate S).1 = some InvalidBucket ∧
    ((a.Allocate S).2.Free (a.Allocate S).1).platformFreed =
      (a.Allocate S).1 :: (a.Allocate S).2.platformFreed ∧
    ((a.Allocate S).2.Free (a.Allocate S).1).Buckets = a.Buckets ∧
    ((((a.Allocate S).2.Free (a.Allocate S).1).Allocate S).1 =
      (a.fresh + 1, 0)) ∧
    (((a.Allocate S).2.Free (a.Allocate S).1).Allocate S).1 ≠
      (a.Allocate S).1 ∧
    ((((a.Allocate S).2.Free (a.Allocate S).1).Allocate S).2.tags
      ((((a.Allocate S).2.Free (a.Allocate S).1).Allocate S).1) =
        some InvalidBucket) ∧
    (((a.Allocate S).2.Free (a.Allocate S).1).Allocate S).2.Buckets =
      a.Buckets ∧
    (((a.Allocate S).2.Free (a.Allocate S).1).Allocate S).2.Blocks =
      a.Blocks := by
  rw [Allocate_large a S h]
  have hfree : ({ a with
      fresh := a.fresh + 1,
      tags := fun q => if q = ((a.fresh, 0) : Addr) then some InvalidBucket else a.tags q } : Allocator).Free (a.fresh, 0) =
    { a with
      fresh := a.fresh + 1,
      tags := fun q => if q = ((a.fresh, 0) : Addr) then some InvalidBucket else a.tags q,
      platformFreed := (a.fresh, 0) :: a.platformFreed } := by
    unfold Allocator.Free
    simp
  rw [hfree, Allocate_large _ S h]
  refine ⟨rfl, by simp, rfl, rfl, rfl, by simp, by simp, rfl, rfl⟩

/-- Witness for C8 at the fresh allocator with `S = 5000`. -/
theorem C8_large_bypass_witness :
    (Allocator.init.Allocate 5000).1 = (Allocator.init.fresh, 0) ∧
    (Allocator.init.Allocate 5000).2.tags (Allocator.init.Allocate 5000).1 =
      some InvalidBucket ∧
    ((Allocator.init.Allocate 5000).2.Free
      (Allocator.init.Allocate 5000).1).platformFreed =
      (Allocator.init.Allocate 5000).1 ::
        (Allocator.init.Allocate 5000).2.platformFreed ∧
    ((Allocator.init.Allocate 5000).2.Free
      (Allocator.init.Allocate 5000).1).Buckets = Allocator.init.Buckets ∧
    ((((Allocator.init.Allocate 5000).2.Free
      (Allocator.init.Allocate 5000).1).Allocate 5000).1 =
      (Allocator.init.fresh + 1, 0)) ∧
    (((Allocator.init.Allocate 5000).2.Free
      (Allocator.init.Allocate 5000).1).Allocate 5000).1 ≠
      (Allocator.init.Allocate 5000).1 ∧
    ((((Allocator.init.Allocate 5000).2.Free
      (Allocator.init.Allocate 5000).1).Allocate 5000).2.tags
      ((((Allocator.init.Allocate 5000).2.Free
        (Allocator.init.Allocate 5000).1).Allocate 5000).1) =
        some InvalidBucket) ∧
    (((Allocator.init.Allocate 5000).2.Free
      (Allocator.init.Allocate 5000).1).Allocate 5000).2.Buckets =
      Allocator.init.Buckets ∧
    (((Allocator.init.Allocate 5000).2.Free
      (Allocator.init.Allocate 5000).1).Allocate 5000).2.Blocks =
      Allocator.init.Blocks :=
  C8_large_bypass Allocator.init 5000 (by decide)

/-- C9: the scoped `UserThreadAlloc` object installs a fresh arena into
the thread-local slot, which must previously be empty (double-install
fails the assertion); its destructor asserts the slot is occupied,
destroys the arena (releasing its blocks) and clears the slot; an
allocation issued while the slot is empty falls back to a raw platform
buffer, and `UserFree` while the slot is empty disposes such a buffer via
the platform deallocator. -/
theorem C9_thread_local_lifecycle (t : ThreadState) (hempty : t.slot = none)
    (S : Nat) (p : Addr) :
    UserThreadAllocCtor t = some { t with slot := some Allocator.init } ∧
    (∀ t2 : ThreadState, ∀ a, t2.slot = some a →
      UserThreadAllocCtor t2 = none) ∧
    UserThreadAllocDtor t = none ∧
    (∀ t2 : ThreadState, ∀ a, t2.slot = some a →
      UserThreadAllocDtor t2 = some { t2 with
        slot := none,
        arenaBlobsFreed := t2.arenaBlobsFreed ++ a.Blocks.map Block.Blob }) ∧
    UserAllocTL t S = ((t.pfresh, 0), { t with pfresh := t.pfresh + 1 }) ∧
    UserFreeTL { t with pfresh := t.pfresh + 1 } p =
      { t with
        pfresh := t.pfresh + 1,
        pfreed := p :: t.pfreed } := by
  refine ⟨?_, ?_, ?_, ?_, ?_, ?_⟩
  · unfold UserThreadAllocCtor
    rw [hempty]
  · intro t2 a ha
    unfold UserThreadAllocCtor
    rw [ha]
  · unfold UserThreadAllocDtor
    rw [hempty]
  · intro t2 a ha
    unfold UserThreadAllocDtor
    rw [ha]
  · unfold UserAllocTL
    rw [hempty]
  · unfold UserFreeTL
    have h2 : ({ t with pfresh := t.pfresh + 1 } : ThreadState).slot =
        none := hempty
    rw [h2]

/-- Witness for C9 at the empty thread state. -/
theorem C9_thread_local_lifecycle_witness :
    UserThreadAllocCtor ⟨none, 0, [], []⟩ =
      some { (⟨none, 0, [], []⟩ : ThreadState) with
        slot := some Allocator.init } :=
  (C9_thread_local_lifecycle ⟨none, 0, [], []⟩ rfl 8 (0, 0)).1

theorem log2_pow (n : Nat) : Nat.log2 (2 ^ n) = n := by
  rw [Nat.log2_eq_log_two]
  exact Nat.log_pow (by omega) n

theorem getFreeBucketIndex_eq {S : Nat} (h : 1 ≤ S) :
    GetFreeBucketIndex S = Nat.log2 S := by
  unfold GetFreeBucketIndex PowerOf2Floor BitScanReverse
  rw [if_neg (by omega), log2_pow]

theorem getReuseBucketIndex_eq (S : Nat) :
    GetReuseBucketIndex S = Nat.clog 2 S := by
  unfold GetReuseBucketIndex NextPowerOf2 BitScanReverse
  rw [log2_pow]

theorem log2_le_twelve {S : Nat} (h1 : 1 ≤ S)
    (h2 : S ≤ LargeAllocationThreshold) : Nat.log2 S ≤ 12 := by
  have h4096 : LargeAllocationThreshold = 4096 := by decide
  have : Nat.log2 S < 13 := by
    rw [Nat.log2_lt (by omega)]
    omega
  omega

theorem tryPopFree_init (r : Nat) : Allocator.init.TryPopFree r = none := by
  unfold Allocator.TryPopFree Allocator.init
  simp

theorem getFirstBlockFor_init (S : Nat) :
    Allocator.init.GetFirstBlockFor S =
      ((0, 0), { Allocator.init with
        Blocks := [{ Blob := 0, Offset := 0 }], fresh := 1 }) := by
  unfold Allocator.GetFirstBlockFor Allocator.init
  simp

theorem Allocate_init_small {S : Nat} (h1 : 1 ≤ S)
    (h2 : S ≤ LargeAllocationThreshold) :
    Allocator.init.Allocate S = (((0 : Nat), (0 : Nat)),
      { Blocks := [{ Blob := 0, Offset := alignUp8 S }], Buckets := [],
        tags := fun q => if q = ((0, 0) : Addr) then some (Nat.log2 S) else none,
        fresh := 1, platformFreed := [] }) := by
  unfold Allocator.Allocate
  rw [if_neg (Nat.not_lt.mpr h2), tryPopFree_init, getFirstBlockFor_init]
  unfold Allocator.bumpLast
  simp [getFreeBucketIndex_eq h1, Allocator.init]

theorem Free_small_empty (a : Allocator) (p : Addr) (k : Nat)
    (ht : a.tags p = some k) (hk : k ≠ InvalidBucket) (hB : a.Buckets = []) :
    a.Free p = { a with
      Buckets := (List.replicate (k + 1) ([] : List Addr)).set k [p] } := by
  unfold Allocator.Free Allocator.GetBucketFor
  simp only [ht]
  rw [if_neg hk, hB]
  have hgetD : ∀ n : Nat, (List.replicate n ([] : List Addr)).getD k [] = [] := by
    intro n
    rw [List.getD_eq_getElem?_getD, List.getElem?_replicate]
    by_cases hkn : k < n <;> simp [hkn]
  simp [hgetD]


theorem free_init_small {S : Nat} (h1 : 1 ≤ S)
    (h2 : S ≤ LargeAllocationThreshold) :
    (Allocator.init.Allocate S).2.Free (Allocator.init.Allocate S).1 =
      { Blocks := [{ Blob := 0, Offset := alignUp8 S }],
        Buckets := (List.replicate (Nat.log2 S + 1) ([] : List Addr)).set
          (Nat.log2 S) [((0, 0) : Addr)],
        tags := fun q => if q = ((0, 0) : Addr) then some (Nat.log2 S) else none,
        fresh := 1, platformFreed := [] } := by
  rw [Allocate_init_small h1 h2]
  exact Free_small_empty _ _ _ (by simp)
    (by
      have hinv : InvalidBucket = 16 := by decide
      have hk := log2_le_twelve h1 h2
      omega) rfl

theorem tryPopFree_hit (a : Allocator) (k : Nat) (p : Addr)
    (hB : a.Buckets = (List.replicate (k + 1) ([] : List Addr)).set k [p]) :
    a.TryPopFree k = some (p, { a with Buckets := a.Buckets.set k [] }) := by
  unfold Allocator.TryPopFree
  have hlen : k < a.Buckets.length := by rw [hB]; simp
  rw [dif_pos hlen]
  have hget : a.Buckets.get ⟨k, hlen⟩ = [p] := by
    rw [List.get_eq_getElem]
    simp [hB]
  rw [hget]
  simp

theorem tryPopFree_miss (a : Allocator) (k r : Nat) (p : Addr) (hne : r ≠ k)
    (hB : a.Buckets = (List.replicate (k + 1) ([] : List Addr)).set k [p]) :
    a.TryPopFree r = none := by
  unfold Allocator.TryPopFree
  by_cases hr : r < a.Buckets.length
  · rw [dif_pos hr]
    have hget : a.Buckets.get ⟨r, hr⟩ = [] := by
      rw [List.get_eq_getElem]
      simp only [hB]
      rw [List.getElem_set]
      rw [if_neg (fun he => hne he.symm)]
      simp
    rw [hget]
    rfl
  · rw [dif_neg hr]

theorem alignUp8_ge_eight {S : Nat} (h : 1 ≤ S) : 8 ≤ alignUp8 S := by
  unfold alignUp8
  have : 1 ≤ (S + 7) / 8 := (Nat.one_le_div_iff (by omega)).mpr (by omega)
  omega

theorem alignUp8_le {S : Nat} : alignUp8 S ≤ S + 7 :=
  Nat.div_mul_le_self _ _

theorem reuse_addr_iff {S S' : Nat} (h1 : 1 ≤ S)
    (h2 : S ≤ LargeAllocationThreshold) (h1' : 1 ≤ S')
    (h2' : S' ≤ LargeAllocationThreshold) :
    ((((Allocator.init.Allocate S).2.Free
      (Allocator.init.Allocate S).1).Allocate S').1 =
        (Allocator.init.Allocate S).1) ↔
      Nat.clog 2 S' = Nat.log2 S := by
  have hp1 : (Allocator.init.Allocate S).1 = ((0 : Nat), (0 : Nat)) := by
    rw [Allocate_init_small h1 h2]
  rw [free_init_small h1 h2, hp1]
  unfold Allocator.Allocate
  rw [if_neg (Nat.not_lt.mpr h2'), getReuseBucketIndex_eq]
  by_cases hc : Nat.clog 2 S' = Nat.log2 S
  · rw [hc, tryPopFree_hit _ (Nat.log2 S) ((0, 0) : Addr) rfl]
    exact iff_of_true rfl rfl
  · rw [tryPopFree_miss _ (Nat.log2 S) (Nat.clog 2 S') ((0, 0) : Addr) hc rfl]
    have hbs : BlockSize = 65536 := by decide
    have h4096 : LargeAllocationThreshold = 4096 := by decide
    have hfit : BlockSize - alignUp8 S ≥ S' := by
      have hle : alignUp8 S ≤ S + 7 := alignUp8_le
      omega
    unfold Allocator.GetFirstBlockFor
    have hlast : ([{ Blob := 0, Offset := alignUp8 S }] : List Block).getLast? =
        some { Blob := 0, Offset := alignUp8 S } := rfl
    simp only [hlast]
    rw [if_pos hfit]
    have hne : ((0 : Nat), alignUp8 S) ≠ ((0 : Nat), (0 : Nat)) := by
      have := alignUp8_ge_eight h1
      intro he
      rw [Prod.mk.injEq] at he
      omega
    exact iff_of_false hne hc

theorem log2_eight : Nat.log2 8 = 3 := by
  rw [show (8 : Nat) = 2 ^ 3 by norm_num, log2_pow]

theorem clog2_two : Nat.clog 2 2 = 1 := by
  rw [show (2 : Nat) = 2 ^ 1 by norm_num]
  exact Nat.clog_pow 2 1 (by omega)

theorem C2_counterexample :
    8 ≤ LargeAllocationThreshold ∧ 2 ≤ 2 ^ Nat.log2 8 ∧
    (((Allocator.init.Allocate 8).2.Free
      (Allocator.init.Allocate 8).1).Allocate 2).1 ≠
      (Allocator.init.Allocate 8).1 := by
  refine ⟨by decide, by rw [log2_eight]; norm_num, ?_⟩
  intro he
  have h3 := (reuse_addr_iff (by decide) (by decide) (by decide)
    (by decide)).mp he
  rw [clog2_two, log2_eight] at h3
  omega

theorem C2_arena_reuse {S S' : Nat} (h1 : 1 ≤ S)
    (h2 : S ≤ LargeAllocationThreshold) (h1' : 1 ≤ S')
    (h2' : S' ≤ LargeAllocationThreshold) :
    ((((Allocator.init.Allocate S).2.Free
      (Allocator.init.Allocate S).1).Allocate S').1 =
        (Allocator.init.Allocate S).1) ↔
      Nat.clog 2 S' = Nat.log2 S :=
  reuse_addr_iff h1 h2 h1' h2'

theorem C2_arena_reuse_witness :
    ((((Allocator.init.Allocate 8).2.Free
      (Allocator.init.Allocate 8).1).Allocate 5).1 =
        (Allocator.init.Allocate 8).1) ↔
      Nat.clog 2 5 = Nat.log2 8 :=
  C2_arena_reuse (by decide) (by decide) (by decide) (by decide)

end Arena

end DXCUser
